import Mathlib

/-!
Formal model of `backend/gemini/parse_gemini_latlon_list.py` (WellWorld).

The Python module implements a tolerant extractor that turns a free-form
Gemini response string into a list of `{"latlon": [lat, lon], "country": c}`
records.  This file gives a shallow embedding of that module: Python strings
become `List Char`, JSON-decoded Python values become `JVal`, exceptions
become `Option`/`Except`, and the two regular expressions of the module are
modelled by deterministic maximal-munch matchers that reproduce the
backtracking behaviour of the concrete patterns.

Modelling conventions (the usual shallow-embedding concessions):
* whitespace sets and lower-casing are modelled on the ASCII range;
* numeric values are exact rationals plus `inf`/`-inf`/`nan`
  (binary64 rounding and overflow of huge decimal literals are not modelled);
* `str()` of composite values is rendered by a simple recursive printer,
  not byte-faithfully to CPython.
-/

namespace WellWorld

/-- Model of the Python whitespace class (ASCII subset) used by `str.strip`
and by the regex class `\s`: space, tab, newline, carriage return, vertical
tab, form feed, by code point. -/
def pyWs (c : Char) : Bool :=
  decide (c.toNat = 32) || decide (c.toNat = 9) || decide (c.toNat = 10) ||
    decide (c.toNat = 13) || decide (c.toNat = 11) || decide (c.toNat = 12)

/-- The single-quote character (written via its code point). -/
def squote : Char := Char.ofNat 39

/-- Model of ASCII lower-casing, used by `str.lower` and by `re.IGNORECASE`
comparisons. -/
def lowerChar (c : Char) : Char :=
  if 65 ≤ c.toNat ∧ c.toNat ≤ 90 then Char.ofNat (c.toNat + 32) else c

/-- Model of `str.lower`. -/
def pyLower (cs : List Char) : List Char := cs.map lowerChar

/-- Drop leading whitespace. -/
def dropLeadWs (cs : List Char) : List Char := cs.dropWhile pyWs

/-- Drop trailing whitespace. -/
def dropTrailWs (cs : List Char) : List Char := (cs.reverse.dropWhile pyWs).reverse

/-- Model of `str.strip()`. -/
def pyStrip (cs : List Char) : List Char := dropTrailWs (dropLeadWs cs)

/-- Numeric values: an exact rational, or one of the non-finite floats that
Python's `float()` and `json.loads` can produce. -/
inductive JNum where
  | finite (q : ℚ)
  | inf
  | neginf
  | nan
deriving DecidableEq

/-- `true` exactly on the `finite` constructor. -/
def JNum.isFiniteB : JNum → Bool
  | .finite _ => true
  | _ => false

/-- The universe of Python values reachable from `json.loads` (also used as
the input domain of the top-level parser, whose contract distinguishes
strings from every other value). -/
inductive JVal where
  | null
  | bool (b : Bool)
  | num (n : JNum)
  | str (s : String)
  | arr (elems : List JVal)
  | obj (members : List (String × JVal))

/-- `true` exactly on the `str` constructor (model of `isinstance(raw, str)`). -/
def JVal.isStr : JVal → Bool
  | .str _ => true
  | _ => false

/-- One output record of the parser: the Python dict
`{"latlon": [lat, lon], "country": country}`. -/
structure GeoRec where
  latlon : JNum × JNum
  country : Option String
deriving DecidableEq

/-- The only exception the Python function lets escape. -/
inductive PyErr where
  | typeError
deriving DecidableEq

/-! ## Maximal-munch scanners shared by the regex models -/

/-- Greedy `\s*`. -/
def munchWs (cs : List Char) : List Char := cs.dropWhile pyWs

/-- Greedy `\d*`: the maximal digit run and the rest. -/
def munchDigits : List Char → List Char × List Char
  | [] => ([], [])
  | c :: cs =>
    if c.isDigit then
      let p := munchDigits cs
      (c :: p.1, p.2)
    else ([], c :: cs)

/-- Optional leading sign of a numeric token. -/
def signSplit (cs : List Char) : List Char × List Char :=
  if cs.head? = some '+' ∨ cs.head? = some '-' then (cs.take 1, cs.tail) else ([], cs)

/-- Model of the regex token `[+-]?\d+(?:\.\d+)?` (greedy; for this pattern
greedy maximal munch coincides with the backtracking engine, because a
shorter digit run can never let the following context match). Returns the
matched token and the rest. -/
def munchNum (cs : List Char) : Option (List Char × List Char) :=
  let s := signSplit cs
  let d := munchDigits s.2
  if d.1 = [] then none
  else
    let frac :=
      if d.2.head? = some '.' then
        let f := munchDigits d.2.tail
        if f.1 = [] then (([] : List Char), d.2) else ('.' :: f.1, f.2)
      else (([] : List Char), d.2)
    some (s.1 ++ d.1 ++ frac.1, frac.2)

/-- Case-insensitive literal match (model of a literal under
`re.IGNORECASE`); returns the rest of the text on success. -/
def ciMatch : List Char → List Char → Option (List Char)
  | [], cs => some cs
  | _ :: _, [] => none
  | p :: ps, c :: cs => if lowerChar c = lowerChar p then ciMatch ps cs else none

/-! ## Model of `json.loads` -/

/-- JSON whitespace (the four characters accepted by Python's json scanner),
by code point. -/
def jWs (c : Char) : Bool :=
  decide (c.toNat = 32) || decide (c.toNat = 9) || decide (c.toNat = 10) ||
    decide (c.toNat = 13)

/-- Skip JSON whitespace. -/
def jSkipWs (cs : List Char) : List Char := cs.dropWhile jWs

/-- Hexadecimal digit value. -/
def hexVal (c : Char) : Option Nat :=
  if c.isDigit then some (c.toNat - 48)
  else if 97 ≤ (lowerChar c).toNat ∧ (lowerChar c).toNat ≤ 102 then
    some ((lowerChar c).toNat - 87)
  else none

/-- The eight single-character escapes of JSON strings. -/
def escChar (e : Char) : Option Char :=
  if e = '"' then some '"'
  else if e = '\\' then some '\\'
  else if e = '/' then some '/'
  else if e = 'b' then some '\x08'
  else if e = 'f' then some '\x0c'
  else if e = 'n' then some '\n'
  else if e = 'r' then some '\r'
  else if e = 't' then some '\t'
  else none

/-- Model of Python's strict JSON string scanner, positioned just after the
opening quote.  Returns the decoded content and the rest after the closing
quote.  Surrogate pairs are combined; a lone surrogate (which CPython keeps
as an unpaired code unit) is mapped through `Char.ofNat`, a corner never
exercised by the claims. -/
def parseJStringAux : Nat → List Char → Option (List Char × List Char)
  | 0, _ => none
  | _, [] => none
  | fuel + 1, c :: rest =>
    if c = '"' then some ([], rest)
    else if c = '\\' then
      match rest with
      | [] => none
      | e :: r2 =>
        if e = 'u' then
          match r2 with
          | h1 :: h2 :: h3 :: h4 :: r3 =>
            match hexVal h1, hexVal h2, hexVal h3, hexVal h4 with
            | some a, some b, some c1, some d1 =>
              let u := ((a * 16 + b) * 16 + c1) * 16 + d1
              match r3 with
              | b1 :: b2 :: h5 :: h6 :: h7 :: h8 :: r4 =>
                if b1 = '\\' ∧ b2 = 'u' ∧ 0xD800 ≤ u ∧ u ≤ 0xDBFF then
                  match hexVal h5, hexVal h6, hexVal h7, hexVal h8 with
                  | some a2, some b2', some c2, some d2 =>
                    let u2 := ((a2 * 16 + b2') * 16 + c2) * 16 + d2
                    if 0xDC00 ≤ u2 ∧ u2 ≤ 0xDFFF then
                      (parseJStringAux fuel r4).map (fun p =>
                        (Char.ofNat (0x10000 + (u - 0xD800) * 0x400 + (u2 - 0xDC00)) :: p.1, p.2))
                    else (parseJStringAux fuel r3).map (fun p => (Char.ofNat u :: p.1, p.2))
                  | _, _, _, _ => (parseJStringAux fuel r3).map (fun p => (Char.ofNat u :: p.1, p.2))
                else (parseJStringAux fuel r3).map (fun p => (Char.ofNat u :: p.1, p.2))
              | _ => (parseJStringAux fuel r3).map (fun p => (Char.ofNat u :: p.1, p.2))
            | _, _, _, _ => none
          | _ => none
        else
          match escChar e with
          | some ec => (parseJStringAux fuel r2).map (fun p => (ec :: p.1, p.2))
          | none => none
    else if c.toNat < 32 then none
    else (parseJStringAux fuel rest).map (fun p => (c :: p.1, p.2))

/-- Model of Python's strict JSON string scanner (fuel wrapper): each step
consumes at least one character, so `length + 1` fuel always suffices. -/
def parseJString (cs : List Char) : Option (List Char × List Char) :=
  parseJStringAux (cs.length + 1) cs

/-- `10^e` over the rationals, for an integer exponent. -/
def tenPow : Int → ℚ
  | .ofNat n => (10 : ℚ) ^ n
  | .negSucc n => 1 / (10 : ℚ) ^ (n + 1)

/-- Value of a digit string. -/
def natOfDigits (ds : List Char) : Nat :=
  ds.foldl (fun a c => a * 10 + (c.toNat - 48)) 0

/-- Assemble a rational from sign, integer digits, fraction digits and a
decimal exponent. -/
def ratOfParts (neg : Bool) (ds fs : List Char) (e : Int) : ℚ :=
  let m : ℚ := (natOfDigits (ds ++ fs) : ℚ) * tenPow (e - fs.length)
  if neg then -m else m

/-- Optional exponent part `([eE][+-]?\d+)?` of a JSON number; returns the
exponent (0 when absent) and the rest. -/
def jnumExp (rest : List Char) : Int × List Char :=
  if rest.head? = some 'e' ∨ rest.head? = some 'E' then
    match rest.tail with
    | [] => (0, rest)
    | c :: r2 =>
      let sg := if c = '+' then (false, r2) else if c = '-' then (true, r2) else (false, c :: r2)
      let d := munchDigits sg.2
      if d.1 = [] then (0, rest)
      else ((if sg.1 then -(natOfDigits d.1 : Int) else (natOfDigits d.1 : Int)), d.2)
  else (0, rest)

/-- Fraction and exponent of a JSON number, after its integer digits. -/
def jnumAfterInt (neg : Bool) (ds : List Char) (rest : List Char) :
    Option (JNum × List Char) :=
  let fr :=
    if rest.head? = some '.' then
      let f := munchDigits rest.tail
      if f.1 = [] then (([] : List Char), rest) else (f.1, f.2)
    else (([] : List Char), rest)
  let ex := jnumExp fr.2
  some (.finite (ratOfParts neg ds fr.1 ex.1), ex.2)

/-- Model of the JSON number grammar `-?(0|[1-9]\d*)(\.\d+)?([eE][+-]?\d+)?`
(ints and floats are both carried as exact rationals). -/
def parseJNum (cs : List Char) : Option (JNum × List Char) :=
  let sg := match cs with
    | c :: r => if c = '-' then (true, r) else (false, cs)
    | [] => (false, ([] : List Char))
  match sg.2 with
  | [] => none
  | c :: r =>
    if c = '0' then jnumAfterInt sg.1 ['0'] r
    else if c.isDigit then
      let d := munchDigits (c :: r)
      jnumAfterInt sg.1 d.1 d.2
    else none

mutual

/-- Model of Python's json value scanner at a value position (no leading
whitespace).  Accepts the Python extensions `NaN`, `Infinity`, `-Infinity`. -/
def parseVal : Nat → List Char → Option (JVal × List Char)
  | 0, _ => none
  | fuel + 1, cs =>
    match cs with
    | [] => none
    | c :: rest =>
      if c = '"' then (parseJString rest).map (fun p => (JVal.str (String.mk p.1), p.2))
      else if c = '[' then
        match jSkipWs rest with
        | ']' :: r2 => some (.arr [], r2)
        | r2 => (parseArrItems fuel r2).map (fun p => (JVal.arr p.1, p.2))
      else if c = '{' then
        match jSkipWs rest with
        | '}' :: r2 => some (.obj [], r2)
        | r2 => (parseObjItems fuel r2).map (fun p => (JVal.obj p.1, p.2))
      else
        match cs with
        | 'n' :: 'u' :: 'l' :: 'l' :: r => some (.null, r)
        | 't' :: 'r' :: 'u' :: 'e' :: r => some (.bool true, r)
        | 'f' :: 'a' :: 'l' :: 's' :: 'e' :: r => some (.bool false, r)
        | 'N' :: 'a' :: 'N' :: r => some (.num .nan, r)
        | 'I' :: 'n' :: 'f' :: 'i' :: 'n' :: 'i' :: 't' :: 'y' :: r => some (.num .inf, r)
        | '-' :: 'I' :: 'n' :: 'f' :: 'i' :: 'n' :: 'i' :: 't' :: 'y' :: r =>
          some (.num .neginf, r)
        | _ => (parseJNum cs).map (fun p => (JVal.num p.1, p.2))

/-- Elements of a non-empty JSON array, positioned at the first element. -/
def parseArrItems : Nat → List Char → Option (List JVal × List Char)
  | 0, _ => none
  | fuel + 1, cs =>
    match parseVal fuel cs with
    | none => none
    | some (v, r) =>
      match jSkipWs r with
      | ',' :: r2 => (parseArrItems fuel (jSkipWs r2)).map (fun p => (v :: p.1, p.2))
      | ']' :: r2 => some ([v], r2)
      | _ => none

/-- Members of a non-empty JSON object, positioned at the first key. -/
def parseObjItems : Nat → List Char → Option (List (String × JVal) × List Char)
  | 0, _ => none
  | fuel + 1, cs =>
    match cs with
    | '"' :: r =>
      match parseJString r with
      | none => none
      | some (k, r2) =>
        match jSkipWs r2 with
        | ':' :: r3 =>
          match parseVal fuel (jSkipWs r3) with
          | none => none
          | some (v, r4) =>
            match jSkipWs r4 with
            | ',' :: r5 =>
              (parseObjItems fuel (jSkipWs r5)).map (fun p => ((String.mk k, v) :: p.1, p.2))
            | '}' :: r5 => some ([(String.mk k, v)], r5)
            | _ => none
        | _ => none
    | _ => none

end

/-- Model of `json.loads` on a string: parse one value surrounded by
whitespace; anything left over (`Extra data`) fails.  The fuel is a bound on
recursion depth, always sufficient for the input length. -/
def jsonLoads (cs : List Char) : Option JVal :=
  let t := jSkipWs cs
  match parseVal (t.length * 2 + 2) t with
  | some (v, rest) => if jSkipWs rest = [] then some v else none
  | none => none

/-- Model of dict lookup `d[k]` / `d.get(k)`: the last binding of a duplicate
key wins, as in dict construction. -/
def jget (kvs : List (String × JVal)) (k : String) : Option JVal :=
  (kvs.reverse.find? (fun p => p.1 == k)).map (fun p => p.2)

/-! ## Model of the Python module's helpers -/

mutual

/-- Model of Python `str()` on a JSON-decoded value.  The rendering of
numbers and composites is a model convention (exact rationals, simple
recursive printing), not byte-faithful to CPython; no claim depends on the
exact text, only on totality of the coercion. -/
def pyStr : JVal → String
  | .null => "None"
  | .bool true => "True"
  | .bool false => "False"
  | .str s => s
  | .num (.finite q) => toString q
  | .num .inf => "inf"
  | .num .neginf => "-inf"
  | .num .nan => "nan"
  | .arr xs => "[" ++ pyStrElems xs ++ "]"
  | .obj kvs => "\x7b" ++ pyStrMembers kvs ++ "\x7d"

/-- Comma-separated rendering of array elements. -/
def pyStrElems : List JVal → String
  | [] => ""
  | [x] => pyStr x
  | x :: xs => pyStr x ++ ", " ++ pyStrElems xs

/-- Comma-separated rendering of object members. -/
def pyStrMembers : List (String × JVal) → String
  | [] => ""
  | [kv] => String.mk (squote :: kv.1.data ++ [squote]) ++ ": " ++ pyStr kv.2
  | kv :: kvs =>
    String.mk (squote :: kv.1.data ++ [squote]) ++ ": " ++ pyStr kv.2 ++ ", " ++
      pyStrMembers kvs

end

/-- The strip / empty-check / lower-case sequence shared by both branches of
`_normalize_country`. -/
def normCore (s : String) : Option String :=
  let t := pyStrip s.data
  if t = [] then none else some (String.mk (pyLower t))

/-- Model of `_normalize_country`: `None` stays `None`; a string is stripped,
an empty result becomes `None`, otherwise it is lower-cased; any other value
is coerced through `str()` and treated the same way.  The `except` branch of
the source (a throwing `__str__`) is unreachable for JSON-decoded values, so
the model is total. -/
def _normalize_country : JVal → Option String
  | .null => none
  | .str s => normCore s
  | v => normCore (pyStr v)

/-- Exponent-and-end part of Python's `float()` grammar, after the digits. -/
def floatEnd (neg : Bool) (ds fs : List Char) (r : List Char) : Option JNum :=
  if r = [] then some (.finite (ratOfParts neg ds fs 0))
  else if r.head? = some 'e' ∨ r.head? = some 'E' then
    match r.tail with
    | [] => none
    | c :: r2 =>
      let sg := if c = '+' then (false, r2) else if c = '-' then (true, r2) else (false, c :: r2)
      let d := munchDigits sg.2
      if d.1 = [] ∨ d.2 ≠ [] then none
      else some (.finite (ratOfParts neg ds fs
        (if sg.1 then -(natOfDigits d.1 : Int) else (natOfDigits d.1 : Int))))
  else none

/-- Model of Python `float()` on a string: optional surrounding whitespace,
optional sign, then digits with optional fraction and exponent, or one of
the case-insensitive literals `inf`, `infinity`, `nan`.  Binary64 rounding,
overflow of huge literals to infinity, and digit-group underscores are not
modelled. -/
def pyFloatParse (s : String) : Option JNum :=
  let cs := pyStrip s.data
  let sg := signSplit cs
  let neg := sg.1 = ['-']
  if sg.2 = [] then none
  else if pyLower sg.2 = ['i', 'n', 'f'] ∨
      pyLower sg.2 = ['i', 'n', 'f', 'i', 'n', 'i', 't', 'y'] then
    some (if neg then .neginf else .inf)
  else if pyLower sg.2 = ['n', 'a', 'n'] then some .nan
  else
    let d := munchDigits sg.2
    if d.1 = [] then
      if d.2.head? = some '.' then
        let f := munchDigits d.2.tail
        if f.1 = [] then none else floatEnd neg [] f.1 f.2
      else none
    else
      if d.2.head? = some '.' then
        let f := munchDigits d.2.tail
        floatEnd neg d.1 f.1 f.2
      else floatEnd neg d.1 [] d.2

/-- Model of Python `float()` on a JSON-decoded value: numbers pass through,
strings are parsed, booleans coerce, everything else raises `TypeError`
(modelled as `none`). -/
def pyFloat : JVal → Option JNum
  | .num n => some n
  | .str s => pyFloatParse s
  | .bool b => some (.finite (if b then 1 else 0))
  | _ => none

/-- The per-entry validation of `_try_json_load`: an entry is kept when it is
a dict whose `"latlon"` value is a two-element sequence both of whose
elements convert with `float()`; the `"country"` field (defaulting to
`None`) goes through the normalizer.  A failing entry is skipped
(`continue`), never fatal. -/
def latlonEntry (item : JVal) : Option GeoRec :=
  match item with
  | .obj kvs =>
    match jget kvs "latlon" with
    | none => none
    | some v =>
      match v with
      | .arr [a, b] =>
        match pyFloat a, pyFloat b with
        | some la, some lo =>
          some ⟨(la, lo), _normalize_country ((jget kvs "country").getD .null)⟩
        | _, _ => none
      | _ => none
  | _ => none

/-- Model of `_try_json_load`: decode the text as JSON; on a decoded list,
keep the valid entries; a decode failure, a non-list decode, or an empty
result all return `None`. -/
def _try_json_load (cs : List Char) : Option (List GeoRec) :=
  match jsonLoads cs with
  | some (.arr items) =>
    let out := items.filterMap latlonEntry
    if out.isEmpty then none else some out
  | _ => none

/-! ## Models of the two regular expressions and of `re.finditer` -/

/-- One pass of `re.finditer`: try the anchored matcher at every position,
left to right; a successful match is emitted with its span `(start, stop)`
and scanning resumes at the matcher's rest, which is exactly the text after
the match end (the matchers of this module never match the empty string, so
fuel equal to the text length always suffices). -/
def finditerAux {α : Type} (m : List Char → Option (α × List Char)) :
    Nat → List Char → Nat → List (Nat × Nat × α)
  | 0, _, _ => []
  | _ + 1, [], _ => []
  | fuel + 1, c :: cs, pos =>
    match m (c :: cs) with
    | some (a, rest) =>
      (pos, pos + (cs.length + 1 - rest.length), a) ::
        finditerAux m fuel rest (pos + (cs.length + 1 - rest.length))
    | none => finditerAux m fuel cs (pos + 1)

/-- All non-overlapping matches, left to right. -/
def finditer {α : Type} (m : List Char → Option (α × List Char)) (cs : List Char) :
    List (Nat × Nat × α) :=
  finditerAux m cs.length cs 0

/-- Model of `re.search`: the first match, if any. -/
def research {α : Type} (m : List Char → Option (α × List Char)) (cs : List Char) :
    Option (Nat × Nat × α) :=
  (finditer m cs).head?

/-- The literal `"latlon"` of the tagged-pair pattern. -/
def latlonLit : List Char := ['"', 'l', 'a', 't', 'l', 'o', 'n', '"']

/-- The literal `"country"` of the country pattern. -/
def countryLit : List Char := ['"', 'c', 'o', 'u', 'n', 't', 'r', 'y', '"']

/-- Anchored model of the tagged-pair pattern
`"latlon"\s*:\s*\[?\s*(NUM)\s*,\s*(NUM)\s*\]?` under `re.IGNORECASE`, with
`NUM = [+-]?\d+(?:\.\d+)?`.  For this pattern the greedy engine never needs
to backtrack (an unconsumed optional bracket or a shorter digit run can
never let the following context match), so the anchored attempt is a
deterministic pipeline.  Captures the two numeric tokens.
First, skip one optional opening bracket (the regex `\[?`). -/
def skipOpenBracket (cs : List Char) : List Char :=
  if cs.head? = some '[' then cs.tail else cs

/-- Skip one optional closing bracket (the regex `\]?`). -/
def skipCloseBracket (cs : List Char) : List Char :=
  if cs.head? = some ']' then cs.tail else cs

def taggedAt (cs : List Char) : Option ((String × String) × List Char) :=
  match ciMatch latlonLit cs with
  | none => none
  | some r1 =>
    if (munchWs r1).head? = some ':' then
      match munchNum (munchWs (skipOpenBracket (munchWs (munchWs r1).tail))) with
      | none => none
      | some (t1, r5) =>
        if (munchWs r5).head? = some ',' then
          match munchNum (munchWs (munchWs r5).tail) with
          | none => none
          | some (t2, r7) =>
            some ((String.mk t1, String.mk t2), skipCloseBracket (munchWs r7))
        else none
    else none

/-- Characters allowed inside the country capture: the regex class
`[^"'},\]]`. -/
def countryTokChar (c : Char) : Bool :=
  !(c = '"' || c = squote || c = '}' || c = ',' || c = ']')

/-- Greedy `[^"'},\]]*`: the maximal token run and the rest. -/
def munchTok (cs : List Char) : List Char × List Char :=
  (cs.takeWhile countryTokChar, cs.dropWhile countryTokChar)

/-- Value part of `(?P<q>["']?)(?P<country>[^"'},\]]+)(?P=q)` at a fixed
position: a quote must be closed by the same quote right after the maximal
token run (the capture class excludes both quote characters, so the engine
has no shorter alternative); otherwise an unquoted non-empty token matches
with an empty backreference. -/
def countryValueAt (cs : List Char) : Option (String × List Char) :=
  match cs with
  | [] => none
  | c :: rest =>
    if c = '"' ∨ c = squote then
      if (munchTok rest).1 = [] then none
      else if (munchTok rest).2.head? = some c then
        some (String.mk (munchTok rest).1, (munchTok rest).2.tail)
      else none
    else
      if (munchTok cs).1 = [] then none
      else some (String.mk (munchTok cs).1, (munchTok cs).2)

/-- The `\s*` before the value with the engine's backtracking order: the
longest whitespace prefix is tried first; on failure the value capture is
retried one position earlier (whitespace is allowed inside the capture
class, so this can succeed). -/
def countryAfterWs : List Char → Option (String × List Char)
  | [] => none
  | c :: rest =>
    if pyWs c then
      match countryAfterWs rest with
      | some res => some res
      | none => countryValueAt (c :: rest)
    else countryValueAt (c :: rest)

/-- Anchored model of the permissive country pattern
`"country"\s*:\s*(?P<q>["']?)(?P<country>[^"'},\]]+)(?P=q)` under
`re.IGNORECASE`.  Captures the raw country token. -/
def countryAt (cs : List Char) : Option (String × List Char) :=
  match ciMatch countryLit cs with
  | none => none
  | some r1 =>
    if (munchWs r1).head? = some ':' then countryAfterWs (munchWs r1).tail else none

/-- Anchored model of the bare-pair pattern `\[\s*(NUM)\s*,\s*(NUM)\s*\]`
(brackets mandatory in this tier). -/
def pairAt (cs : List Char) : Option ((String × String) × List Char) :=
  if cs.head? = some '[' then
    match munchNum (munchWs cs.tail) with
    | none => none
    | some (t1, r2) =>
      if (munchWs r2).head? = some ',' then
        match munchNum (munchWs (munchWs r2).tail) with
        | none => none
        | some (t2, r4) =>
          if (munchWs r4).head? = some ']' then
            some ((String.mk t1, String.mk t2), (munchWs r4).tail)
          else none
      else none
  else none

/-! ## The proximity associator and the tier cascade -/

/-- The forward search window `text[m.end() : m.end() + 200]`. -/
def windowForward (cs : List Char) (me : Nat) : List Char := (cs.drop me).take 200

/-- The backward search window `text[max(0, m.start() - 200) : m.start()]`
(truncating Nat subtraction models the `max(0, ...)` clamp). -/
def windowBackward (cs : List Char) (ms : Nat) : List Char := (cs.take ms).drop (ms - 200)

/-- First country capture in a chunk: `country_pattern.search(chunk)` plus
`group("country")`. -/
def searchCountry (chunk : List Char) : Option String :=
  (research countryAt chunk).map (fun m => m.2.2)

/-- Model of the per-match country association (the source repeats this
block verbatim in both regex tiers): forward window first, then backward
window, then the whole text; each recovered token goes through
`_normalize_country`; no match anywhere leaves the country as `None`. -/
def findCountry (cs : List Char) (ms me : Nat) : Option String :=
  match searchCountry (windowForward cs me) with
  | some tok => _normalize_country (.str tok)
  | none =>
    match searchCountry (windowBackward cs ms) with
    | some tok => _normalize_country (.str tok)
    | none =>
      match searchCountry cs with
      | some tok => _normalize_country (.str tok)
      | none => none

/-- Body of the per-match loop shared by the two regex tiers: convert the
two captured tokens with `float()` and attach the associated country; a
conversion failure skips the match (`except: continue`). -/
def recOfMatch (cs : List Char) (m : Nat × Nat × (String × String)) : Option GeoRec :=
  match pyFloatParse m.2.2.1, pyFloatParse m.2.2.2 with
  | some la, some lo => some ⟨(la, lo), findCountry cs m.1 m.2.1⟩
  | _, _ => none

/-- Records of the tagged-pair tier. -/
def taggedResults (cs : List Char) : List GeoRec :=
  (finditer taggedAt cs).filterMap (recOfMatch cs)

/-- Records of the bare-pair tier. -/
def bareResults (cs : List Char) : List GeoRec :=
  (finditer pairAt cs).filterMap (recOfMatch cs)

/-- The two regex fallback tiers: the bare-pair tier runs only when the
tagged tier produced no records (`if not results:`). -/
def regexTiers (cs : List Char) : List GeoRec :=
  let results := taggedResults cs
  if results.isEmpty then bareResults cs else results

/-- The tier cascade after preprocessing: strict JSON decode first, its
result returned as-is on success; otherwise the regex tiers. -/
def parseCore (cs : List Char) : List GeoRec :=
  match _try_json_load cs with
  | some parsed => parsed
  | none => regexTiers cs

/-! ## Preprocessing and the top-level entry point -/

/-- The backtick character (written via its code point). -/
def btick : Char := Char.ofNat 96

/-- Does the text start with a triple-backtick fence marker? -/
def startsWithTicks (cs : List Char) : Bool :=
  match cs with
  | a :: b :: c :: _ => a == btick && b == btick && c == btick
  | _ => false

/-- Model of `re.sub(r"^```(?:json)?\s*", "", text, flags=IGNORECASE)`:
without MULTILINE the anchor is the start of the string, so at most one
leading fence marker is removed, together with its optional
case-insensitive `json` tag and the following whitespace run. -/
def stripLeadingFence (cs : List Char) : List Char :=
  if startsWithTicks cs then
    if pyLower ((cs.drop 3).take 4) = ['j', 's', 'o', 'n'] then munchWs ((cs.drop 3).drop 4)
    else munchWs (cs.drop 3)
  else cs

/-- Model of `re.sub(r"\s*```$", "", text)`: `$` matches at the end of the
string or just before a terminating newline; the leftmost match swallows
the maximal whitespace run before the closing fence. -/
def stripTrailingFence (cs : List Char) : List Char :=
  let r := cs.reverse
  if startsWithTicks r then ((r.drop 3).dropWhile pyWs).reverse
  else if r.head? = some '\n' ∧ startsWithTicks r.tail then
    ((r.tail.drop 3).dropWhile pyWs).reverse ++ ['\n']
  else cs

/-- Model of the quoted-layer unwrap: when the text both starts and ends
with the same quote character, try `json.loads` on it and keep the decoded
string; keep the text unchanged when the decode fails or yields a
non-string. -/
def unwrapQuoted (cs : List Char) : List Char :=
  if (cs.head? = some '"' ∧ cs.getLast? = some '"') ∨
      (cs.head? = some squote ∧ cs.getLast? = some squote) then
    match jsonLoads cs with
    | some (.str s) => s.data
    | _ => cs
  else cs

/-- The preprocessing prefix of `parse_gemini_latlon_list`: strip, remove
the code fences, unwrap a quoted layer. -/
def preprocess (cs : List Char) : List Char :=
  unwrapQuoted (stripTrailingFence (stripLeadingFence (pyStrip cs)))

/-- Model of `parse_gemini_latlon_list`: a non-string input raises
`TypeError`; a string input runs the preprocessing and the tier cascade,
every internal failure being caught, so it never raises. -/
def parse_gemini_latlon_list (raw : JVal) : Except PyErr (List GeoRec) :=
  match raw with
  | .str s => .ok (parseCore (preprocess s.data))
  | _ => .error .typeError

/-! ## Character-level lemmas -/

lemma char_eq_iff_toNat {c d : Char} : c = d ↔ c.toNat = d.toNat := by
  constructor
  · intro h
    rw [h]
  · intro h
    exact Char.eq_of_val_eq (UInt32.toNat.inj h)

lemma toNat_ofNat_of_lt {n : Nat} (h : n < 55296) : (Char.ofNat n).toNat = n := by
  have hv : n.isValidChar := Or.inl h
  unfold Char.ofNat
  rw [dif_pos hv]
  rfl

lemma bool_eq_false {b : Bool} (h : ¬ b = true) : b = false := Bool.eq_false_iff.mpr h

lemma lowerChar_toNat (c : Char) :
    (lowerChar c).toNat = if 65 ≤ c.toNat ∧ c.toNat ≤ 90 then c.toNat + 32 else c.toNat := by
  unfold lowerChar
  split
  · rename_i h
    exact toNat_ofNat_of_lt (by omega)
  · rfl

lemma lowerChar_lowerChar (c : Char) : lowerChar (lowerChar c) = lowerChar c := by
  rw [char_eq_iff_toNat, lowerChar_toNat, lowerChar_toNat]
  split_ifs <;> omega

lemma pyWs_lowerChar (c : Char) : pyWs (lowerChar c) = pyWs c := by
  unfold pyWs
  rw [lowerChar_toNat, Bool.eq_iff_iff]
  simp only [Bool.or_eq_true, decide_eq_true_eq]
  split_ifs <;> omega

lemma isDigit_true_iff {c : Char} : c.isDigit = true ↔ 48 ≤ c.toNat ∧ c.toNat ≤ 57 := by
  unfold Char.isDigit
  simp only [Bool.and_eq_true, decide_eq_true_eq, ge_iff_le]
  constructor
  · rintro ⟨h1, h2⟩
    rw [UInt32.le_def, BitVec.le_def] at h1 h2
    exact ⟨h1, h2⟩
  · rintro ⟨h1, h2⟩
    constructor
    · rw [UInt32.le_def, BitVec.le_def]
      exact h1
    · rw [UInt32.le_def, BitVec.le_def]
      exact h2

lemma pyWs_of_isDigit {c : Char} (h : c.isDigit = true) : pyWs c = false := by
  rw [isDigit_true_iff] at h
  unfold pyWs
  simp only [Bool.or_eq_false_iff, decide_eq_false_iff_not]
  omega

lemma lowerChar_eq_self_of_toNat_lt {c : Char} (h : c.toNat < 65) : lowerChar c = c := by
  unfold lowerChar
  rw [if_neg (by omega)]

/-! ## List-level lemmas about `dropWhile` and stripping -/

lemma dropWhile_cons_false {p : Char → Bool} {c : Char} (l : List Char)
    (h : p c = false) : (c :: l).dropWhile p = c :: l := by
  rw [List.dropWhile_cons, h]
  simp

lemma head_dropWhile_false {p : Char → Bool} {c : Char} {r : List Char} :
    ∀ {l : List Char}, l.dropWhile p = c :: r → p c = false := by
  intro l
  induction l with
  | nil => intro h; simp at h
  | cons a t ih =>
    intro h
    rw [List.dropWhile_cons] at h
    by_cases ha : p a = true
    · rw [if_pos ha] at h
      exact ih h
    · rw [if_neg ha] at h
      injection h with h1 h2
      rw [← h1]
      exact bool_eq_false ha

lemma dropWhile_idem (p : Char → Bool) (l : List Char) :
    (l.dropWhile p).dropWhile p = l.dropWhile p := by
  cases h : l.dropWhile p with
  | nil => rfl
  | cons c r => exact dropWhile_cons_false r (head_dropWhile_false h)

lemma length_dropWhile_le (p : Char → Bool) (l : List Char) :
    (l.dropWhile p).length ≤ l.length := by
  induction l with
  | nil => simp
  | cons a t ih =>
    rw [List.dropWhile_cons]
    by_cases ha : p a
    · rw [if_pos ha]
      simp only [List.length_cons]
      omega
    · rw [if_neg ha]

lemma dropTrailWs_head (x : List Char) :
    dropTrailWs x = [] ∨ (dropTrailWs x).head? = x.head? := by
  cases x with
  | nil => left; rfl
  | cons c t =>
    unfold dropTrailWs
    rw [List.reverse_cons, List.dropWhile_append]
    by_cases he : (t.reverse.dropWhile pyWs).isEmpty = true
    · rw [if_pos he]
      by_cases hc : pyWs c = true
      · left
        rw [List.dropWhile_cons, if_pos hc]
        rfl
      · right
        rw [dropWhile_cons_false [] (bool_eq_false hc)]
        rfl
    · right
      rw [if_neg he, List.reverse_append]
      rfl

lemma dropTrailWs_idem (x : List Char) : dropTrailWs (dropTrailWs x) = dropTrailWs x := by
  unfold dropTrailWs
  rw [List.reverse_reverse, dropWhile_idem]

lemma pyStrip_head_false {l : List Char} {c : Char} {r : List Char}
    (h : pyStrip l = c :: r) : pyWs c = false := by
  unfold pyStrip at h
  rcases dropTrailWs_head (dropLeadWs l) with h0 | h0
  · rw [h0] at h
    cases h
  · rw [h] at h0
    unfold dropLeadWs at h0
    cases hd : (l.dropWhile pyWs) with
    | nil => rw [hd] at h0; cases h0
    | cons a s =>
      rw [hd] at h0
      simp only [List.head?_cons, Option.some.injEq] at h0
      rw [h0]
      exact head_dropWhile_false hd

lemma pyStrip_rev_head_false {l : List Char} {c : Char} {r : List Char}
    (h : (pyStrip l).reverse = c :: r) : pyWs c = false := by
  unfold pyStrip dropTrailWs at h
  rw [List.reverse_reverse] at h
  exact head_dropWhile_false h

lemma pyStrip_idem (l : List Char) : pyStrip (pyStrip l) = pyStrip l := by
  unfold pyStrip
  have hA : dropLeadWs (dropTrailWs (dropLeadWs l)) = dropTrailWs (dropLeadWs l) := by
    cases h : dropTrailWs (dropLeadWs l) with
    | nil => rfl
    | cons c r =>
      unfold dropLeadWs
      exact dropWhile_cons_false r (@pyStrip_head_false l c r h)
  rw [hA, dropTrailWs_idem]

/-! ## Lower-casing commutes with stripping -/

lemma pyWs_comp_lowerChar : (fun c => pyWs (lowerChar c)) = pyWs := by
  funext c
  exact pyWs_lowerChar c

lemma dropWhile_pyWs_pyLower (l : List Char) :
    (pyLower l).dropWhile pyWs = pyLower (l.dropWhile pyWs) := by
  unfold pyLower
  rw [List.dropWhile_map]
  have : (pyWs ∘ lowerChar) = pyWs := by
    funext c
    exact pyWs_lowerChar c
  rw [this]

lemma pyLower_reverse (l : List Char) : (pyLower l).reverse = pyLower l.reverse := by
  unfold pyLower
  exact (List.map_reverse lowerChar l).symm

lemma dropLeadWs_pyLower (l : List Char) :
    dropLeadWs (pyLower l) = pyLower (dropLeadWs l) := by
  unfold dropLeadWs
  exact dropWhile_pyWs_pyLower l

lemma dropTrailWs_pyLower (l : List Char) :
    dropTrailWs (pyLower l) = pyLower (dropTrailWs l) := by
  unfold dropTrailWs
  rw [pyLower_reverse, dropWhile_pyWs_pyLower]
  exact pyLower_reverse _

lemma pyStrip_pyLower (l : List Char) : pyStrip (pyLower l) = pyLower (pyStrip l) := by
  unfold pyStrip
  rw [dropLeadWs_pyLower, dropTrailWs_pyLower]

lemma pyLower_pyLower (l : List Char) : pyLower (pyLower l) = pyLower l := by
  unfold pyLower
  rw [List.map_map]
  apply List.map_congr_left
  intro c _
  exact lowerChar_lowerChar c

/-! ## The normalizer: C9 -/

/-- Embed the normalizer's result back as a Python value (`None` or `str`),
to state idempotence. -/
def optToJVal : Option String → JVal
  | none => .null
  | some s => .str s

lemma normCore_some {s t : String} (h : normCore s = some t) :
    pyStrip s.data ≠ [] ∧ t = String.mk (pyLower (pyStrip s.data)) := by
  unfold normCore at h
  by_cases he : pyStrip s.data = []
  · rw [if_pos he] at h
    cases h
  · rw [if_neg he] at h
    refine ⟨he, ?_⟩
    exact ((Option.some.injEq _ _).mp h).symm

lemma normCore_canonical {s t : String} (h : normCore s = some t) :
    t.data ≠ [] ∧ pyStrip t.data = t.data ∧ pyLower t.data = t.data := by
  obtain ⟨hne, ht⟩ := normCore_some h
  have hdata : t.data = pyLower (pyStrip s.data) := by rw [ht]
  refine ⟨?_, ?_, ?_⟩
  · rw [hdata]
    intro hnil
    exact hne (List.map_eq_nil_iff.mp hnil)
  · rw [hdata, pyStrip_pyLower, pyStrip_idem]
  · rw [hdata, pyLower_pyLower]

lemma normCore_of_canonical {t : String} (hne : t.data ≠ [])
    (hstrip : pyStrip t.data = t.data) (hlow : pyLower t.data = t.data) :
    normCore t = some t := by
  unfold normCore
  rw [hstrip, if_neg hne, hlow]

/-- C9. For every input value, `_normalize_country` is idempotent (feeding
its result back, as `None` or as a string, reproduces it), and its result is
either `None` or a non-empty string that equals its own stripped and its own
lower-cased form; the model is total, so it never raises.  This covers in
particular every scalar input. -/
theorem C9_normalize_idempotent_canonical (x : JVal) :
    _normalize_country (optToJVal (_normalize_country x)) = _normalize_country x ∧
    (_normalize_country x = none ∨
      ∃ s : String, _normalize_country x = some s ∧ s ≠ "" ∧
        String.mk (pyStrip s.data) = s ∧ String.mk (pyLower s.data) = s) := by
  have main : ∀ u : String, _normalize_country x = normCore u →
      _normalize_country (optToJVal (_normalize_country x)) = _normalize_country x ∧
      (_normalize_country x = none ∨
        ∃ s : String, _normalize_country x = some s ∧ s ≠ "" ∧
          String.mk (pyStrip s.data) = s ∧ String.mk (pyLower s.data) = s) := by
    intro u hu
    cases hn : normCore u with
    | none =>
      rw [hu, hn]
      exact ⟨rfl, Or.inl rfl⟩
    | some t =>
      obtain ⟨hne, hstrip, hlow⟩ := normCore_canonical hn
      have hback : _normalize_country (optToJVal (some t)) = some t := by
        show _normalize_country (.str t) = some t
        show normCore t = some t
        exact normCore_of_canonical hne hstrip hlow
      refine ⟨?_, Or.inr ⟨t, by rw [hu, hn], ?_, ?_, ?_⟩⟩
      · rw [hu, hn]
        exact hback
      · intro habs
        apply hne
        rw [habs]
      · rw [hstrip]
      · rw [hlow]
  cases x with
  | null => exact ⟨rfl, Or.inl rfl⟩
  | str s => exact main s rfl
  | bool b => exact main (pyStr (.bool b)) rfl
  | num n => exact main (pyStr (.num n)) rfl
  | arr xs => exact main (pyStr (.arr xs)) rfl
  | obj kvs => exact main (pyStr (.obj kvs)) rfl

/-! ## C1: the input-type contract -/

/-- C1. A non-string input makes `parse_gemini_latlon_list` raise
`TypeError`; a string input never raises and returns a list (the model is
total on the string branch, every internal failure being caught), the empty
list being a possible result. -/
theorem C1_input_type_contract (raw : JVal) :
    (raw.isStr = true → ∃ l : List GeoRec, parse_gemini_latlon_list raw = .ok l) ∧
    (raw.isStr = false → parse_gemini_latlon_list raw = .error .typeError) := by
  cases raw with
  | str s => exact ⟨fun _ => ⟨_, rfl⟩, fun h => Bool.noConfusion h⟩
  | null => exact ⟨fun h => Bool.noConfusion h, fun _ => rfl⟩
  | bool b => exact ⟨fun h => Bool.noConfusion h, fun _ => rfl⟩
  | num n => exact ⟨fun h => Bool.noConfusion h, fun _ => rfl⟩
  | arr xs => exact ⟨fun h => Bool.noConfusion h, fun _ => rfl⟩
  | obj kvs => exact ⟨fun h => Bool.noConfusion h, fun _ => rfl⟩

/-- Witness for C1: a concrete string input returns a list; a concrete
non-string input raises `TypeError`. -/
theorem C1_witness :
    (∃ l : List GeoRec, parse_gemini_latlon_list (.str "no coordinates") = .ok l) ∧
    parse_gemini_latlon_list .null = .error .typeError :=
  ⟨(C1_input_type_contract (.str "no coordinates")).1 rfl,
    (C1_input_type_contract .null).2 rfl⟩

/-! ## C3: the three-tier proximity association -/

/-- C3. For a match span `(ms, me)`, the country is associated in this fixed
priority order: the 200-character window after the match end; on no match
there, the 200-character window before the match start; on no match there,
the first occurrence in the whole text; otherwise `None`.  Every recovered
token passes through the normalizer. -/
theorem C3_association_priority (cs : List Char) (ms me : Nat) :
    (∀ tok, searchCountry (windowForward cs me) = some tok →
      findCountry cs ms me = _normalize_country (.str tok)) ∧
    (searchCountry (windowForward cs me) = none →
      ∀ tok, searchCountry (windowBackward cs ms) = some tok →
        findCountry cs ms me = _normalize_country (.str tok)) ∧
    (searchCountry (windowForward cs me) = none →
      searchCountry (windowBackward cs ms) = none →
      ∀ tok, searchCountry cs = some tok →
        findCountry cs ms me = _normalize_country (.str tok)) ∧
    (searchCountry (windowForward cs me) = none →
      searchCountry (windowBackward cs ms) = none →
      searchCountry cs = none → findCountry cs ms me = none) := by
  refine ⟨?_, ?_, ?_, ?_⟩
  · intro tok h
    unfold findCountry
    rw [h]
  · intro h1 tok h2
    unfold findCountry
    rw [h1, h2]
  · intro h1 h2 tok h3
    unfold findCountry
    rw [h1, h2, h3]
  · intro h1 h2 h3
    unfold findCountry
    rw [h1, h2, h3]

/-- Witness for C3: a forward-window association on a concrete text, and the
`None` outcome on a text with no country key. -/
theorem C3_witness :
    findCountry "\"country\": \"KeNyA\"".data 0 0 = some "kenya" ∧
    findCountry "no key here".data 0 0 = none := by
  constructor
  · have h := (C3_association_priority "\"country\": \"KeNyA\"".data 0 0).1 "KeNyA" (by decide)
    rw [h]
    decide
  · exact (C3_association_priority "no key here".data 0 0).2.2.2 (by decide) (by decide)
      (by decide)

/-! ## C4: exactly one tier produces the result -/

/-- C4. On any string input: when the strict decoder succeeds its result is
returned unchanged (no regex tier contributes); when it fails, the
tagged-pair tier's records are returned whenever there is at least one, and
the bare-pair tier's records are returned exactly when the tagged tier
produced none; two tiers are never merged. -/
theorem C4_single_tier (s : String) :
    (∀ l, _try_json_load (preprocess s.data) = some l →
      parse_gemini_latlon_list (.str s) = .ok l) ∧
    (_try_json_load (preprocess s.data) = none →
      taggedResults (preprocess s.data) ≠ [] →
      parse_gemini_latlon_list (.str s) = .ok (taggedResults (preprocess s.data))) ∧
    (_try_json_load (preprocess s.data) = none →
      taggedResults (preprocess s.data) = [] →
      parse_gemini_latlon_list (.str s) = .ok (bareResults (preprocess s.data))) := by
  refine ⟨?_, ?_, ?_⟩
  · intro l h
    show Except.ok (parseCore (preprocess s.data)) = _
    unfold parseCore
    rw [h]
  · intro h hne
    show Except.ok (parseCore (preprocess s.data)) = _
    unfold parseCore regexTiers
    rw [h]
    have : (taggedResults (preprocess s.data)).isEmpty = false := by
      cases ht : taggedResults (preprocess s.data) with
      | nil => exact absurd ht hne
      | cons a t => rfl
    simp only [this]
    rfl
  · intro h he
    show Except.ok (parseCore (preprocess s.data)) = _
    unfold parseCore regexTiers
    rw [h, he]
    rfl

/-- Witness for C4: the strict tier on a well-formed array, the tagged tier
on a malformed tagged pair, the bare tier on a lone bracketed pair. -/
theorem C4_witness :
    parse_gemini_latlon_list (.str "[\x7b\"latlon\": [1, 2]\x7d]") =
      .ok [⟨(.finite 1, .finite 2), none⟩] ∧
    parse_gemini_latlon_list (.str "\"latlon\": 1.5, 2.5") =
      .ok (taggedResults (preprocess "\"latlon\": 1.5, 2.5".data)) ∧
    parse_gemini_latlon_list (.str "see [3, 4] there") =
      .ok (bareResults (preprocess "see [3, 4] there".data)) :=
  ⟨(C4_single_tier _).1 [⟨(.finite 1, .finite 2), none⟩] (by with_unfolding_all decide),
    (C4_single_tier _).2.1 (by with_unfolding_all decide) (by with_unfolding_all decide),
    (C4_single_tier _).2.2 (by with_unfolding_all decide) (by with_unfolding_all decide)⟩

/-! ## C5: the strict-tier entry filter -/

/-- C5 (amended): in the strict tier an entry is emitted iff it is a dict
whose `"latlon"` value is a two-element array both of whose elements
convert with `float()` — finiteness is not checked — and nothing else, in
particular not the `"country"` field, can disqualify an entry. -/
theorem C5_entry_emitted_iff (item : JVal) :
    (latlonEntry item).isSome = true ↔
      ∃ kvs a b, item = .obj kvs ∧ jget kvs "latlon" = some (.arr [a, b]) ∧
        (pyFloat a).isSome = true ∧ (pyFloat b).isSome = true := by
  cases item with
  | null => simp [latlonEntry]
  | bool b => simp [latlonEntry]
  | num n => simp [latlonEntry]
  | str s => simp [latlonEntry]
  | arr xs => simp [latlonEntry]
  | obj kvs =>
    unfold latlonEntry
    cases hv : jget kvs "latlon" with
    | none => simp [hv]
    | some v =>
      cases v with
      | arr xs =>
        match xs with
        | [] => simp [hv]
        | [a] => simp [hv]
        | [a, b] =>
          cases ha : pyFloat a with
          | none => simp [hv, ha]
          | some la =>
            cases hb : pyFloat b with
            | none => simp [hv, ha, hb]
            | some lo =>
              simp only [hv, ha, hb, Option.isSome_some, true_iff]
              exact ⟨kvs, a, b, rfl, hv, by rw [ha]; rfl, by rw [hb]; rfl⟩
        | a :: b :: c :: t => simp [hv]
      | null => simp [hv]
      | bool b => simp [hv]
      | num n => simp [hv]
      | str s => simp [hv]
      | obj kvs2 => simp [hv]

/-- C5 counterexample: this entry IS emitted by the code although its first
coordinate coerces to the non-finite float `inf`, so "both elements coerce
to finite floats" is not necessary for emission. -/
theorem C5_counterexample :
    latlonEntry (.obj [("latlon", .arr [.str "inf", .str "0"])]) =
      some ⟨(.inf, .finite 0), none⟩ ∧
    pyFloat (.str "inf") = some .inf ∧ JNum.isFiniteB .inf = false := by
  refine ⟨?_, ?_, rfl⟩ <;> with_unfolding_all decide

/-! ## C6: a semantically empty decode falls through -/

/-- C6. When the JSON decode succeeds with a list but no entry passes the
validation, `_try_json_load` returns `None` exactly as on a failed decode,
and the pipeline continues with the regex tiers on the same text. -/
theorem C6_empty_decode_falls_through (cs : List Char) (items : List JVal)
    (h1 : jsonLoads cs = some (.arr items))
    (h2 : items.filterMap latlonEntry = []) :
    _try_json_load cs = none ∧ parseCore cs = regexTiers cs := by
  have ht : _try_json_load cs = none := by
    unfold _try_json_load
    rw [h1]
    simp only [h2]
    rfl
  refine ⟨ht, ?_⟩
  unfold parseCore
  rw [ht]

/-- Witness for C6: `"[1, 2]"` decodes to a list with no valid entry, the
strict tier yields `None`, and the regex tiers (here the bare-pair tier)
produce the result. -/
theorem C6_witness :
    _try_json_load "[1, 2]".data = none ∧
    parseCore "[1, 2]".data = regexTiers "[1, 2]".data :=
  C6_empty_decode_falls_through _ [.num (.finite 1), .num (.finite 2)]
    (by with_unfolding_all rfl) (by rfl)

/-! ## Decomposition lemmas for the munchers -/

lemma head_eq_cons {l : List Char} {c : Char} (h : l.head? = some c) : l = c :: l.tail := by
  cases l with
  | nil => simp at h
  | cons a t =>
    simp only [List.head?_cons, Option.some.injEq] at h
    rw [h]
    rfl

lemma signSplit_append (cs : List Char) : (signSplit cs).1 ++ (signSplit cs).2 = cs := by
  unfold signSplit
  by_cases h : cs.head? = some '+' ∨ cs.head? = some '-'
  · rw [if_pos h]
    show cs.take 1 ++ cs.tail = cs
    rw [← List.drop_one, List.take_append_drop]
  · rw [if_neg h]
    rfl

lemma signSplit_shape (cs : List Char) :
    (signSplit cs).1 = [] ∨ (signSplit cs).1 = ['+'] ∨ (signSplit cs).1 = ['-'] := by
  unfold signSplit
  by_cases h : cs.head? = some '+' ∨ cs.head? = some '-'
  · rw [if_pos h]
    rcases h with h | h
    · right
      left
      rw [head_eq_cons h]
      rfl
    · right
      right
      rw [head_eq_cons h]
      rfl
  · rw [if_neg h]
    exact Or.inl rfl

lemma munchDigits_append_eq (cs : List Char) :
    (munchDigits cs).1 ++ (munchDigits cs).2 = cs := by
  induction cs with
  | nil => rfl
  | cons c r ih =>
    unfold munchDigits
    by_cases hc : c.isDigit = true
    · rw [if_pos hc]
      simp only [List.cons_append]
      rw [ih]
    · rw [if_neg hc]
      rfl

lemma munchDigits_all_digits (cs : List Char) :
    ∀ c ∈ (munchDigits cs).1, c.isDigit = true := by
  induction cs with
  | nil => intro c h; simp [munchDigits] at h
  | cons a r ih =>
    intro c h
    unfold munchDigits at h
    by_cases ha : a.isDigit = true
    · rw [if_pos ha] at h
      simp only [List.mem_cons] at h
      rcases h with h | h
      · rw [h]; exact ha
      · exact ih c h
    · rw [if_neg ha] at h
      simp at h

lemma munchNum_append {cs t r : List Char} (h : munchNum cs = some (t, r)) :
    t ++ r = cs := by
  unfold munchNum at h
  by_cases hd : (munchDigits (signSplit cs).2).1 = []
  · rw [if_pos hd] at h
    cases h
  · rw [if_neg hd] at h
    by_cases hdot : (munchDigits (signSplit cs).2).2.head? = some '.'
    · rw [if_pos hdot] at h
      by_cases hf : (munchDigits (munchDigits (signSplit cs).2).2.tail).1 = []
      · rw [if_pos hf] at h
        simp only [Option.some.injEq, Prod.mk.injEq] at h
        rw [← h.1, ← h.2]
        simp only [List.append_nil, List.append_assoc]
        rw [munchDigits_append_eq, signSplit_append]
      · rw [if_neg hf] at h
        simp only [Option.some.injEq, Prod.mk.injEq] at h
        rw [← h.1, ← h.2]
        simp only [List.append_assoc, List.cons_append]
        rw [munchDigits_append_eq, ← head_eq_cons hdot, munchDigits_append_eq,
          signSplit_append]
    · rw [if_neg hdot] at h
      simp only [Option.some.injEq, Prod.mk.injEq] at h
      rw [← h.1, ← h.2]
      simp only [List.append_nil, List.append_assoc]
      rw [munchDigits_append_eq, signSplit_append]

lemma munchNum_length {cs t r : List Char} (h : munchNum cs = some (t, r)) :
    r.length ≤ cs.length := by
  have := munchNum_append h
  rw [← this]
  simp only [List.length_append]
  omega

lemma ciMatch_length {pat : List Char} :
    ∀ {cs r : List Char}, ciMatch pat cs = some r → r.length + pat.length = cs.length := by
  induction pat with
  | nil =>
    intro cs r h
    unfold ciMatch at h
    simp only [Option.some.injEq] at h
    rw [h]
    rfl
  | cons p ps ih =>
    intro cs r h
    cases cs with
    | nil => simp [ciMatch] at h
    | cons c t =>
      unfold ciMatch at h
      by_cases hc : lowerChar c = lowerChar p
      · rw [if_pos hc] at h
        have := ih h
        simp only [List.length_cons]
        omega
      · rw [if_neg hc] at h
        cases h

lemma munchWs_length (cs : List Char) : (munchWs cs).length ≤ cs.length :=
  length_dropWhile_le pyWs cs

lemma munchTok_append (cs : List Char) : (munchTok cs).1 ++ (munchTok cs).2 = cs :=
  List.takeWhile_append_dropWhile countryTokChar cs

/-! ## Each anchored matcher consumes at least one character -/

lemma length_tail_le (cs : List Char) : cs.tail.length ≤ cs.length := by
  cases cs <;> simp

lemma skipOpenBracket_length (cs : List Char) : (skipOpenBracket cs).length ≤ cs.length := by
  unfold skipOpenBracket
  by_cases h : cs.head? = some '['
  · rw [if_pos h]
    exact length_tail_le cs
  · rw [if_neg h]

lemma skipCloseBracket_length (cs : List Char) : (skipCloseBracket cs).length ≤ cs.length := by
  unfold skipCloseBracket
  by_cases h : cs.head? = some ']'
  · rw [if_pos h]
    exact length_tail_le cs
  · rw [if_neg h]

lemma taggedAt_consumes {cs : List Char} {a : String × String} {r : List Char}
    (h : taggedAt cs = some (a, r)) : r.length < cs.length := by
  unfold taggedAt at h
  split at h
  · exact Option.noConfusion h
  · rename_i r1 h1
    have hl1 : r1.length + 8 = cs.length := ciMatch_length h1
    split at h
    · split at h
      · exact Option.noConfusion h
      · rename_i t1 r5 h3
        split at h
        · split at h
          · exact Option.noConfusion h
          · rename_i t2 r7 h6
            injection h with h7
            have hr : r = skipCloseBracket (munchWs r7) := (congrArg Prod.snd h7).symm
            have e1 := munchNum_length h3
            have e2 := munchWs_length (skipOpenBracket (munchWs (munchWs r1).tail))
            have e3 := skipOpenBracket_length (munchWs (munchWs r1).tail)
            have e4 := munchWs_length (munchWs r1).tail
            have e5 := length_tail_le (munchWs r1)
            have e0 := munchWs_length r1
            have e6 := munchNum_length h6
            have e7 := munchWs_length (munchWs r5).tail
            have e8 := length_tail_le (munchWs r5)
            have e9 := munchWs_length r5
            have e10 := skipCloseBracket_length (munchWs r7)
            have e11 := munchWs_length r7
            rw [hr]
            omega
        · exact Option.noConfusion h
    · exact Option.noConfusion h

lemma pairAt_consumes {cs : List Char} {a : String × String} {r : List Char}
    (h : pairAt cs = some (a, r)) : r.length < cs.length := by
  unfold pairAt at h
  split at h
  · rename_i h0
    have hne : cs ≠ [] := by
      intro hnil
      rw [hnil] at h0
      cases h0
    have hlen : 1 ≤ cs.length := by
      cases cs
      · exact absurd rfl hne
      · simp
    split at h
    · exact Option.noConfusion h
    · rename_i t1 r2 h3
      split at h
      · split at h
        · exact Option.noConfusion h
        · rename_i t2 r4 h6
          split at h
          · injection h with h7
            have hr : r = (munchWs r4).tail := (congrArg Prod.snd h7).symm
            have e1 := munchNum_length h3
            have e2 := munchWs_length cs.tail
            have e3 : cs.tail.length + 1 = cs.length := by
              cases cs
              · exact absurd rfl hne
              · simp
            have e4 := munchNum_length h6
            have e5 := munchWs_length (munchWs r2).tail
            have e6 := length_tail_le (munchWs r2)
            have e7 := munchWs_length r2
            have e8 := length_tail_le (munchWs r4)
            have e9 := munchWs_length r4
            rw [hr]
            omega
          · exact Option.noConfusion h
      · exact Option.noConfusion h
  · exact Option.noConfusion h

lemma countryValueAt_consumes {cs : List Char} {tok : String} {r : List Char}
    (h : countryValueAt cs = some (tok, r)) : r.length < cs.length := by
  unfold countryValueAt at h
  split at h
  · exact Option.noConfusion h
  · rename_i c rest
    have happ : (munchTok rest).1 ++ (munchTok rest).2 = rest := munchTok_append rest
    have happ2 : (munchTok (c :: rest)).1 ++ (munchTok (c :: rest)).2 = c :: rest :=
      munchTok_append (c :: rest)
    split at h
    · split at h
      · exact Option.noConfusion h
      · rename_i hne
        split at h
        · rename_i hhd
          injection h with h7
          have hr : r = (munchTok rest).2.tail := (congrArg Prod.snd h7).symm
          have h2ne : (munchTok rest).2 ≠ [] := by
            intro hnil
            rw [hnil] at hhd
            cases hhd
          have h2len : (munchTok rest).2.tail.length + 1 = (munchTok rest).2.length := by
            cases hx : (munchTok rest).2 with
            | nil => exact absurd hx h2ne
            | cons d r2 => simp
          have h1len : 1 ≤ (munchTok rest).1.length := by
            cases hx : (munchTok rest).1 with
            | nil => exact absurd hx hne
            | cons d r2 => simp
          have := congrArg List.length happ
          simp only [List.length_append] at this
          rw [hr]
          simp only [List.length_cons]
          omega
        · exact Option.noConfusion h
    · split at h
      · exact Option.noConfusion h
      · rename_i hne
        injection h with h7
        have hr : r = (munchTok (c :: rest)).2 := (congrArg Prod.snd h7).symm
        have h1len : 1 ≤ (munchTok (c :: rest)).1.length := by
          cases hx : (munchTok (c :: rest)).1 with
          | nil => exact absurd hx hne
          | cons d r2 => simp
        have := congrArg List.length happ2
        simp only [List.length_append, List.length_cons] at this
        rw [hr]
        simp only [List.length_cons]
        omega

lemma countryAfterWs_consumes : ∀ {cs : List Char} {tok : String} {r : List Char},
    countryAfterWs cs = some (tok, r) → r.length < cs.length := by
  intro cs
  induction cs with
  | nil =>
    intro tok r h
    exact Option.noConfusion h
  | cons c rest ih =>
    intro tok r h
    unfold countryAfterWs at h
    split at h
    · split at h
      · rename_i res heq
        injection h with h7
        rw [h7] at heq
        have := ih heq
        simp only [List.length_cons]
        omega
      · exact countryValueAt_consumes h
    · exact countryValueAt_consumes h

lemma countryAt_consumes {cs : List Char} {tok : String} {r : List Char}
    (h : countryAt cs = some (tok, r)) : r.length < cs.length := by
  unfold countryAt at h
  split at h
  · exact Option.noConfusion h
  · rename_i r1 h1
    have hl1 : r1.length + 9 = cs.length := ciMatch_length h1
    split at h
    · have := countryAfterWs_consumes h
      have e1 := length_tail_le (munchWs r1)
      have e2 := munchWs_length r1
      omega
    · exact Option.noConfusion h

/-! ## Generic properties of the finditer model -/

lemma finditerAux_mem_bounds {α : Type} {m : List Char → Option (α × List Char)}
    (hm : ∀ cs a r, m cs = some (a, r) → r.length < cs.length) :
    ∀ fuel (cs : List Char) (pos : Nat) (x : Nat × Nat × α),
      x ∈ finditerAux m fuel cs pos → pos ≤ x.1 ∧ x.1 < x.2.1 := by
  intro fuel
  induction fuel with
  | zero =>
    intro cs pos x hx
    exact absurd hx (by simp [finditerAux])
  | succ f ih =>
    intro cs pos x hx
    cases cs with
    | nil => exact absurd hx (by simp [finditerAux])
    | cons c t =>
      unfold finditerAux at hx
      cases hmc : m (c :: t) with
      | none =>
        rw [hmc] at hx
        have := ih t (pos + 1) x hx
        omega
      | some p =>
        obtain ⟨a, rest⟩ := p
        rw [hmc] at hx
        have hlen := hm _ _ _ hmc
        simp only [List.length_cons] at hlen
        simp only [List.mem_cons] at hx
        rcases hx with hx | hx
        · rw [hx]
          refine ⟨le_refl pos, ?_⟩
          show pos < pos + (t.length + 1 - rest.length)
          omega
        · have := ih rest _ x hx
          omega

lemma finditerAux_chain {α : Type} {m : List Char → Option (α × List Char)}
    (hm : ∀ cs a r, m cs = some (a, r) → r.length < cs.length) :
    ∀ fuel (cs : List Char) (pos : Nat),
      List.Chain' (fun x y => x.2.1 ≤ y.1) (finditerAux m fuel cs pos) := by
  intro fuel
  induction fuel with
  | zero =>
    intro cs pos
    simp [finditerAux]
  | succ f ih =>
    intro cs pos
    cases cs with
    | nil => simp [finditerAux]
    | cons c t =>
      unfold finditerAux
      cases hmc : m (c :: t) with
      | none => exact ih t (pos + 1)
      | some p =>
        obtain ⟨a, rest⟩ := p
        rw [List.chain'_cons']
        refine ⟨?_, ih rest _⟩
        intro y hy
        have hmem : y ∈ finditerAux m f rest (pos + (t.length + 1 - rest.length)) := by
          cases hfd : finditerAux m f rest (pos + (t.length + 1 - rest.length)) with
          | nil =>
            rw [hfd] at hy
            cases hy
          | cons z l =>
            rw [hfd] at hy
            simp only [List.head?_cons, Option.mem_def, Option.some.injEq] at hy
            exact List.mem_cons.mpr (Or.inl hy.symm)
        have := finditerAux_mem_bounds hm f rest _ y hmem
        show (pos, pos + (t.length + 1 - rest.length), a).2.1 ≤ y.1
        simp only
        omega

lemma finditerAux_mem_match {α : Type} {m : List Char → Option (α × List Char)} :
    ∀ fuel (cs : List Char) (pos : Nat) (x : Nat × Nat × α),
      x ∈ finditerAux m fuel cs pos → ∃ sub r, m sub = some (x.2.2, r) := by
  intro fuel
  induction fuel with
  | zero =>
    intro cs pos x hx
    exact absurd hx (by simp [finditerAux])
  | succ f ih =>
    intro cs pos x hx
    cases cs with
    | nil => exact absurd hx (by simp [finditerAux])
    | cons c t =>
      unfold finditerAux at hx
      cases hmc : m (c :: t) with
      | none =>
        rw [hmc] at hx
        exact ih t (pos + 1) x hx
      | some p =>
        obtain ⟨a, rest⟩ := p
        rw [hmc] at hx
        simp only [List.mem_cons] at hx
        rcases hx with hx | hx
        · refine ⟨c :: t, rest, ?_⟩
          rw [hx]
          exact hmc
        · exact ih rest _ x hx

/-- Spans are emitted left to right and never overlap: every match starts
strictly before its own end, and each match starts at or after the end of
the previous one. -/
def SpanOrdered {α : Type} (ms : List (Nat × Nat × α)) : Prop :=
  List.Chain' (fun x y => x.2.1 ≤ y.1) ms ∧ ∀ x ∈ ms, x.1 < x.2.1

/-- C7. Order preservation: the regex tiers emit their records in the
left-to-right order of their non-overlapping match spans (the result list is
the in-order filterMap of the ordered match list), and the strict tier
preserves the input array order (its filter is a homomorphism for
concatenation). -/
theorem C7_order_preservation (cs : List Char) (xs ys : List JVal) :
    SpanOrdered (finditer taggedAt cs) ∧ SpanOrdered (finditer pairAt cs) ∧
    taggedResults cs = (finditer taggedAt cs).filterMap (recOfMatch cs) ∧
    bareResults cs = (finditer pairAt cs).filterMap (recOfMatch cs) ∧
    (xs ++ ys).filterMap latlonEntry =
      xs.filterMap latlonEntry ++ ys.filterMap latlonEntry := by
  have hmt : ∀ cs' (a : String × String) r, taggedAt cs' = some (a, r) →
      r.length < cs'.length := fun _ _ _ h => taggedAt_consumes h
  have hmp : ∀ cs' (a : String × String) r, pairAt cs' = some (a, r) →
      r.length < cs'.length := fun _ _ _ h => pairAt_consumes h
  refine ⟨⟨finditerAux_chain hmt _ _ _, ?_⟩, ⟨finditerAux_chain hmp _ _ _, ?_⟩,
    rfl, rfl, List.filterMap_append xs ys latlonEntry⟩
  · intro x hx
    exact (finditerAux_mem_bounds hmt _ _ _ x hx).2
  · intro x hx
    exact (finditerAux_mem_bounds hmp _ _ _ x hx).2

/-! ## C10: captured tokens always convert with float() -/

/-- The shape of a token matched by the regex `[+-]?\d+(?:\.\d+)?`. -/
def IsNumTok (t : List Char) : Prop :=
  ∃ sgn ds fr, t = sgn ++ ds ++ fr ∧ (sgn = [] ∨ sgn = ['+'] ∨ sgn = ['-']) ∧
    ds ≠ [] ∧ (∀ c ∈ ds, c.isDigit = true) ∧
    (fr = [] ∨ ∃ fs, fr = '.' :: fs ∧ fs ≠ [] ∧ ∀ c ∈ fs, c.isDigit = true)

lemma munchNum_shape {cs t r : List Char} (h : munchNum cs = some (t, r)) : IsNumTok t := by
  unfold munchNum at h
  by_cases hd : (munchDigits (signSplit cs).2).1 = []
  · rw [if_pos hd] at h
    cases h
  · rw [if_neg hd] at h
    by_cases hdot : (munchDigits (signSplit cs).2).2.head? = some '.'
    · rw [if_pos hdot] at h
      by_cases hf : (munchDigits (munchDigits (signSplit cs).2).2.tail).1 = []
      · rw [if_pos hf] at h
        simp only [Option.some.injEq, Prod.mk.injEq] at h
        refine ⟨(signSplit cs).1, (munchDigits (signSplit cs).2).1, [], ?_,
          signSplit_shape cs, hd, munchDigits_all_digits _, Or.inl rfl⟩
        rw [← h.1]
      · rw [if_neg hf] at h
        simp only [Option.some.injEq, Prod.mk.injEq] at h
        refine ⟨(signSplit cs).1, (munchDigits (signSplit cs).2).1,
          '.' :: (munchDigits (munchDigits (signSplit cs).2).2.tail).1, ?_,
          signSplit_shape cs, hd, munchDigits_all_digits _,
          Or.inr ⟨_, rfl, hf, munchDigits_all_digits _⟩⟩
        rw [← h.1]
    · rw [if_neg hdot] at h
      simp only [Option.some.injEq, Prod.mk.injEq] at h
      refine ⟨(signSplit cs).1, (munchDigits (signSplit cs).2).1, [], ?_,
        signSplit_shape cs, hd, munchDigits_all_digits _, Or.inl rfl⟩
      rw [← h.1]

lemma no_ws_of_numTok {t : List Char} (h : IsNumTok t) : ∀ c ∈ t, pyWs c = false := by
  obtain ⟨sgn, ds, fr, rfl, hs, _, hds, hfr⟩ := h
  intro c hc
  simp only [List.append_assoc, List.mem_append] at hc
  have htn : (48 ≤ c.toNat ∧ c.toNat ≤ 57) ∨ c.toNat = 43 ∨ c.toNat = 45 ∨ c.toNat = 46 := by
    rcases hc with hc | hc | hc
    · rcases hs with hs | hs | hs
      · rw [hs] at hc
        simp at hc
      · rw [hs] at hc
        simp only [List.mem_singleton] at hc
        right
        left
        rw [hc]
        rfl
      · rw [hs] at hc
        simp only [List.mem_singleton] at hc
        right
        right
        left
        rw [hc]
        rfl
    · exact Or.inl (isDigit_true_iff.mp (hds c hc))
    · rcases hfr with hfr | ⟨fs, hfs, _, hall⟩
      · rw [hfr] at hc
        simp at hc
      · rw [hfs] at hc
        simp only [List.mem_cons] at hc
        rcases hc with hc | hc
        · right
          right
          right
          rw [hc]
          rfl
        · exact Or.inl (isDigit_true_iff.mp (hall c hc))
  unfold pyWs
  simp only [Bool.or_eq_false_iff, decide_eq_false_iff_not]
  omega

lemma dropWhile_eq_self_of_all {p : Char → Bool} {l : List Char}
    (h : ∀ c ∈ l, p c = false) : l.dropWhile p = l := by
  cases l with
  | nil => rfl
  | cons c t => exact dropWhile_cons_false t (h c (List.mem_cons_self c t))

lemma pyStrip_eq_self_of_no_ws {l : List Char} (h : ∀ c ∈ l, pyWs c = false) :
    pyStrip l = l := by
  unfold pyStrip dropLeadWs dropTrailWs
  rw [dropWhile_eq_self_of_all h]
  rw [dropWhile_eq_self_of_all (fun c hc => h c (List.mem_reverse.mp hc))]
  exact List.reverse_reverse l

lemma digit_lowerChar {d : Char} (hd : d.isDigit = true) : lowerChar d = d := by
  have := isDigit_true_iff.mp hd
  exact lowerChar_eq_self_of_toNat_lt (by omega)

lemma digit_not_plus_minus {d : Char} (hd : d.isDigit = true) :
    ¬(d = '+' ∨ d = '-') := by
  have h1 := isDigit_true_iff.mp hd
  have h2 : ('+').toNat = 43 := rfl
  have h3 : ('-').toNat = 45 := rfl
  rintro (h | h) <;> rw [char_eq_iff_toNat] at h <;> omega

lemma munchDigits_append_digits {ds fr : List Char} (hds : ∀ c ∈ ds, c.isDigit = true)
    (hfr : ∀ c t2, fr = c :: t2 → c.isDigit = false) :
    munchDigits (ds ++ fr) = (ds, fr) := by
  induction ds with
  | nil =>
    simp only [List.nil_append]
    cases fr with
    | nil => rfl
    | cons c t2 =>
      unfold munchDigits
      rw [if_neg (by rw [hfr c t2 rfl]; simp)]
  | cons d ds2 ih =>
    have hd := hds d (List.mem_cons_self d ds2)
    simp only [List.cons_append]
    unfold munchDigits
    rw [if_pos hd]
    rw [ih (fun c hc => hds c (List.mem_cons_of_mem d hc))]

lemma signSplit_no_sign {t : List Char} {d : Char} (hhd : t.head? = some d)
    (hd : d.isDigit = true) : signSplit t = ([], t) := by
  unfold signSplit
  rw [if_neg]
  intro hcon
  have := digit_not_plus_minus hd
  apply this
  rcases hcon with hcon | hcon
  · rw [hhd] at hcon
    injection hcon with h1
    exact Or.inl h1
  · rw [hhd] at hcon
    injection hcon with h1
    exact Or.inr h1

lemma signSplit_sign {t : List Char} {c : Char} (hc : c = '+' ∨ c = '-') :
    signSplit (c :: t) = ([c], t) := by
  unfold signSplit
  rw [if_pos]
  · rfl
  · rcases hc with hc | hc
    · left
      rw [hc]
      rfl
    · right
      rw [hc]
      rfl

/-- A regex numeric token is accepted by the Python float() grammar with a
finite value. -/
lemma pyFloatParse_of_numTok {t : List Char} (h : IsNumTok t) :
    ∃ q : ℚ, pyFloatParse (String.mk t) = some (.finite q) := by
  obtain ⟨sgn, ds, fr, rfl, hs, hdne, hds, hfr⟩ := h
  obtain ⟨d, ds2, rfl⟩ : ∃ d ds2, ds = d :: ds2 := by
    cases ds with
    | nil => exact absurd rfl hdne
    | cons d ds2 => exact ⟨d, ds2, rfl⟩
  have hd := hds d (List.mem_cons_self d ds2)
  have hdigits : munchDigits ((d :: ds2) ++ fr) = (d :: ds2, fr) := by
    apply munchDigits_append_digits hds
    intro c t2 hfr2
    rcases hfr with hfr | ⟨fs, hfs, _, _⟩
    · rw [hfr] at hfr2
      cases hfr2
    · rw [hfs] at hfr2
      injection hfr2 with h1 h2
      rw [← h1]
      rfl
  have hdig1 : (munchDigits ((d :: ds2) ++ fr)).1 = d :: ds2 := by rw [hdigits]
  have hdig2 : (munchDigits ((d :: ds2) ++ fr)).2 = fr := by rw [hdigits]
  have hnows : ∀ c ∈ sgn ++ (d :: ds2) ++ fr, pyWs c = false :=
    no_ws_of_numTok ⟨sgn, d :: ds2, fr, rfl, hs, hdne, hds, hfr⟩
  have hsplit : signSplit (sgn ++ (d :: ds2) ++ fr) = (sgn, (d :: ds2) ++ fr) := by
    rcases hs with hs | hs | hs
    · rw [hs, List.nil_append]
      exact signSplit_no_sign (by rw [List.cons_append, List.head?_cons]) hd
    · rw [hs]
      show signSplit ('+' :: ((d :: ds2) ++ fr)) = (['+'], (d :: ds2) ++ fr)
      exact signSplit_sign (Or.inl rfl)
    · rw [hs]
      show signSplit ('-' :: ((d :: ds2) ++ fr)) = (['-'], (d :: ds2) ++ fr)
      exact signSplit_sign (Or.inr rfl)
  have hsplit1 : (signSplit (sgn ++ (d :: ds2) ++ fr)).1 = sgn := by rw [hsplit]
  have hsplit2 : (signSplit (sgn ++ (d :: ds2) ++ fr)).2 = (d :: ds2) ++ fr := by rw [hsplit]
  have hlowhead : ∀ (e : Char) (l2 : List Char), e.isDigit = false →
      pyLower ((d :: ds2) ++ fr) ≠ e :: l2 := by
    intro e l2 he hcon
    unfold pyLower at hcon
    simp only [List.cons_append, List.map_cons] at hcon
    injection hcon with h1 h2
    rw [digit_lowerChar hd] at h1
    rw [h1] at hd
    rw [hd] at he
    cases he
  have hne_head : ((d :: ds2) ++ fr : List Char) ≠ [] := by simp
  have hninf : ¬(pyLower ((d :: ds2) ++ fr) = ['i', 'n', 'f'] ∨
      pyLower ((d :: ds2) ++ fr) = ['i', 'n', 'f', 'i', 'n', 'i', 't', 'y']) := by
    rintro (hcon | hcon)
    · exact hlowhead 'i' ['n', 'f'] rfl hcon
    · exact hlowhead 'i' ['n', 'f', 'i', 'n', 'i', 't', 'y'] rfl hcon
  have hnnan : ¬(pyLower ((d :: ds2) ++ fr) = ['n', 'a', 'n']) :=
    fun hcon => hlowhead 'n' ['a', 'n'] rfl hcon
  have hdata : (String.mk (sgn ++ (d :: ds2) ++ fr)).data = sgn ++ (d :: ds2) ++ fr := rfl
  unfold pyFloatParse
  simp only [hdata, pyStrip_eq_self_of_no_ws hnows, hsplit1, hsplit2, hdig1, hdig2]
  rw [if_neg hne_head, if_neg hninf, if_neg hnnan,
    if_neg (show ¬(d :: ds2 = []) by simp)]
  rcases hfr with hfr | ⟨fs, hfs, hfsne, hfsall⟩
  · rw [hfr]
    rw [if_neg (show ¬(([] : List Char).head? = some '.') by simp)]
    unfold floatEnd
    rw [if_pos rfl]
    exact ⟨_, rfl⟩
  · rw [hfs]
    rw [if_pos (show ('.' :: fs).head? = some '.' by rw [List.head?_cons])]
    have hfs2 : munchDigits fs = (fs, []) := by
      have hh := @munchDigits_append_digits fs []
        hfsall (fun c t2 hcon => by cases hcon)
      rw [List.append_nil] at hh
      exact hh
    have hfs2a : (munchDigits (('.' :: fs).tail)).1 = fs := by
      rw [List.tail_cons, hfs2]
    have hfs2b : (munchDigits (('.' :: fs).tail)).2 = [] := by
      rw [List.tail_cons, hfs2]
    simp only [hfs2a, hfs2b]
    unfold floatEnd
    rw [if_pos rfl]
    exact ⟨_, rfl⟩

lemma taggedAt_floats {cs : List Char} {p : String × String} {r : List Char}
    (h : taggedAt cs = some (p, r)) :
    (pyFloatParse p.1).isSome = true ∧ (pyFloatParse p.2).isSome = true := by
  unfold taggedAt at h
  split at h
  · exact Option.noConfusion h
  · split at h
    · split at h
      · exact Option.noConfusion h
      · rename_i t1 r5 h3
        split at h
        · split at h
          · exact Option.noConfusion h
          · rename_i t2 r7 h6
            injection h with h7
            have hp : p = (String.mk t1, String.mk t2) := (congrArg Prod.fst h7).symm
            obtain ⟨q1, hq1⟩ := pyFloatParse_of_numTok (munchNum_shape h3)
            obtain ⟨q2, hq2⟩ := pyFloatParse_of_numTok (munchNum_shape h6)
            rw [hp]
            constructor
            · show (pyFloatParse (String.mk t1)).isSome = true
              rw [hq1]
              rfl
            · show (pyFloatParse (String.mk t2)).isSome = true
              rw [hq2]
              rfl
        · exact Option.noConfusion h
    · exact Option.noConfusion h

lemma pairAt_floats {cs : List Char} {p : String × String} {r : List Char}
    (h : pairAt cs = some (p, r)) :
    (pyFloatParse p.1).isSome = true ∧ (pyFloatParse p.2).isSome = true := by
  unfold pairAt at h
  split at h
  · split at h
    · exact Option.noConfusion h
    · rename_i t1 r2 h3
      split at h
      · split at h
        · exact Option.noConfusion h
        · rename_i t2 r4 h6
          split at h
          · injection h with h7
            have hp : p = (String.mk t1, String.mk t2) := (congrArg Prod.fst h7).symm
            obtain ⟨q1, hq1⟩ := pyFloatParse_of_numTok (munchNum_shape h3)
            obtain ⟨q2, hq2⟩ := pyFloatParse_of_numTok (munchNum_shape h6)
            rw [hp]
            constructor
            · show (pyFloatParse (String.mk t1)).isSome = true
              rw [hq1]
              rfl
            · show (pyFloatParse (String.mk t2)).isSome = true
              rw [hq2]
              rfl
          · exact Option.noConfusion h
      · exact Option.noConfusion h
  · exact Option.noConfusion h

lemma recOfMatch_isSome {cs : List Char} {m : Nat × Nat × (String × String)}
    (h1 : (pyFloatParse m.2.2.1).isSome = true) (h2 : (pyFloatParse m.2.2.2).isSome = true) :
    (recOfMatch cs m).isSome = true := by
  unfold recOfMatch
  cases hf1 : pyFloatParse m.2.2.1 with
  | none =>
    rw [hf1] at h1
    cases h1
  | some la =>
    cases hf2 : pyFloatParse m.2.2.2 with
    | none =>
      rw [hf2] at h2
      cases h2
    | some lo => rfl

lemma length_filterMap_of_all {α β : Type} (f : α → Option β) (l : List α)
    (h : ∀ x ∈ l, (f x).isSome = true) : (l.filterMap f).length = l.length := by
  induction l with
  | nil => rfl
  | cons a t ih =>
    have ha := h a (List.mem_cons_self a t)
    cases hfa : f a with
    | none =>
      rw [hfa] at ha
      cases ha
    | some b =>
      rw [List.filterMap_cons, hfa]
      simp only [List.length_cons]
      rw [ih (fun x hx => h x (List.mem_cons_of_mem a hx))]

/-- C10. The numeric pattern of the regex tiers captures only
sign-digits-optional-fraction literals, every such token converts with
`float()` without raising, so the per-match skip branch never fires and
each tier emits exactly one record per non-overlapping match: the output
length equals the match count. -/
theorem C10_skip_branch_unreachable (cs : List Char) :
    (taggedResults cs).length = (finditer taggedAt cs).length ∧
    (bareResults cs).length = (finditer pairAt cs).length := by
  constructor
  · apply length_filterMap_of_all
    intro x hx
    obtain ⟨sub, r, hsub⟩ := finditerAux_mem_match _ _ _ x hx
    obtain ⟨hf1, hf2⟩ := taggedAt_floats hsub
    exact recOfMatch_isSome hf1 hf2
  · apply length_filterMap_of_all
    intro x hx
    obtain ⟨sub, r, hsub⟩ := finditerAux_mem_match _ _ _ x hx
    obtain ⟨hf1, hf2⟩ := pairAt_floats hsub
    exact recOfMatch_isSome hf1 hf2

/-! ## C2: bracket-omission tolerance of the tagged-pair extractor -/

/-- The captured coordinate-token pairs of the tagged-pair extractor. -/
def taggedPairs (cs : List Char) : List (String × String) :=
  (finditer taggedAt cs).map (fun m => m.2.2)

/-- A text fragment where the coordinate key (in arbitrary casing) is
followed by a colon and two numeric tokens, with the opening and closing
brackets independently present or absent. -/
def taggedFragment (key a b : List Char) (lb rb : Bool) : List Char :=
  ['"'] ++ key ++ ['"', ':', ' '] ++ (if lb then ['['] else []) ++ a ++
    [',', ' '] ++ b ++ (if rb then [']'] else [])

lemma ciMatch_of_lower : ∀ {pat key2 : List Char}, pyLower key2 = pyLower pat →
    ∀ rest, ciMatch pat (key2 ++ rest) = some rest := by
  intro pat
  induction pat with
  | nil =>
    intro key2 h rest
    have : key2 = [] := List.map_eq_nil_iff.mp h
    rw [this]
    rfl
  | cons p ps ih =>
    intro key2 h rest
    cases key2 with
    | nil => exact absurd h.symm (by simp [pyLower])
    | cons k ks =>
      unfold pyLower at h
      simp only [List.map_cons, List.cons.injEq] at h
      show ciMatch (p :: ps) (k :: (ks ++ rest)) = some rest
      unfold ciMatch
      rw [if_pos h.1]
      exact ih h.2 rest

lemma munchWs_cons {c : Char} (l : List Char) (hc : pyWs c = false) :
    munchWs (c :: l) = c :: l :=
  dropWhile_cons_false l hc

lemma munchWs_cons_ws {c : Char} (l : List Char) (hc : pyWs c = true) :
    munchWs (c :: l) = munchWs l := by
  unfold munchWs
  rw [List.dropWhile_cons, if_pos hc]

lemma numTok_ne_nil {t : List Char} (h : IsNumTok t) : t ≠ [] := by
  obtain ⟨sgn, ds, fr, rfl, hs, hdne, _, _⟩ := h
  intro hcon
  rcases List.append_eq_nil.mp hcon with ⟨h1, h2⟩
  rcases List.append_eq_nil.mp h1 with ⟨_, h3⟩
  exact hdne h3

lemma numTok_head {t : List Char} (h : IsNumTok t) :
    ∃ c0 t2, t = c0 :: t2 ∧
      (c0.toNat = 43 ∨ c0.toNat = 45 ∨ (48 ≤ c0.toNat ∧ c0.toNat ≤ 57)) := by
  obtain ⟨sgn, ds, fr, rfl, hs, hdne, hds, _⟩ := h
  obtain ⟨d, ds2, rfl⟩ : ∃ d ds2, ds = d :: ds2 := by
    cases ds with
    | nil => exact absurd rfl hdne
    | cons d ds2 => exact ⟨d, ds2, rfl⟩
  have hd := isDigit_true_iff.mp (hds d (List.mem_cons_self d ds2))
  rcases hs with hs | hs | hs
  · rw [hs, List.nil_append, List.cons_append]
    exact ⟨d, ds2 ++ fr, rfl, Or.inr (Or.inr hd)⟩
  · rw [hs]
    exact ⟨'+', (d :: ds2) ++ fr, rfl, Or.inl rfl⟩
  · rw [hs]
    exact ⟨'-', (d :: ds2) ++ fr, rfl, Or.inr (Or.inl rfl)⟩

lemma signSplit_sgn_digits {sgn : List Char} {d : Char} {Y : List Char}
    (hs : sgn = [] ∨ sgn = ['+'] ∨ sgn = ['-']) (hd : d.isDigit = true) :
    signSplit (sgn ++ (d :: Y)) = (sgn, d :: Y) := by
  rcases hs with hs | hs | hs
  · rw [hs, List.nil_append]
    exact signSplit_no_sign (by rw [List.head?_cons]) hd
  · rw [hs]
    show signSplit ('+' :: (d :: Y)) = (['+'], d :: Y)
    exact signSplit_sign (Or.inl rfl)
  · rw [hs]
    show signSplit ('-' :: (d :: Y)) = (['-'], d :: Y)
    exact signSplit_sign (Or.inr rfl)

/-- Appending a non-numeric continuation to a numeric token leaves the
greedy numeric matcher with exactly the token: the matcher consumes the
token and nothing more. -/
lemma munchNum_token_append {a rest : List Char} (h : IsNumTok a)
    (hrest : rest = [] ∨ ∃ c r2, rest = c :: r2 ∧ c.isDigit = false ∧ ¬(c = '.')) :
    munchNum (a ++ rest) = some (a, rest) := by
  obtain ⟨sgn, ds, fr, rfl, hs, hdne, hds, hfr⟩ := h
  obtain ⟨d, ds2, rfl⟩ : ∃ d ds2, ds = d :: ds2 := by
    cases ds with
    | nil => exact absurd rfl hdne
    | cons d ds2 => exact ⟨d, ds2, rfl⟩
  have hd := hds d (List.mem_cons_self d ds2)
  have hassoc : (sgn ++ (d :: ds2) ++ fr) ++ rest = sgn ++ (d :: (ds2 ++ (fr ++ rest))) := by
    simp [List.append_assoc]
  have hndfr : ∀ c t2, fr ++ rest = c :: t2 → c.isDigit = false := by
    intro c t2 hcon
    rcases hfr with hfr | ⟨fs, hfs, _, _⟩
    · rw [hfr, List.nil_append] at hcon
      rcases hrest with hrest | ⟨c2, r2, hr2, hnd, _⟩
      · rw [hrest] at hcon
        cases hcon
      · rw [hr2] at hcon
        injection hcon with h1 _
        rw [← h1]
        exact hnd
    · rw [hfs] at hcon
      injection hcon with h1 _
      rw [← h1]
      rfl
  have hmd : munchDigits (d :: (ds2 ++ (fr ++ rest))) = (d :: ds2, fr ++ rest) :=
    munchDigits_append_digits hds hndfr
  unfold munchNum
  rw [hassoc, signSplit_sgn_digits hs hd]
  simp only [hmd]
  rcases hfr with hfr | ⟨fs, hfs, hfsne, hfsall⟩
  · subst hfr
    rcases hrest with hrest | ⟨c2, r2, hr2, hnd, hndot⟩
    · subst hrest
      simp
    · subst hr2
      have hhd : ¬((([] : List Char) ++ c2 :: r2).head? = some '.') := by
        simp only [List.nil_append, List.head?_cons]
        intro hcon
        injection hcon with h1
        exact hndot h1
      simp [hhd, hndot]
  · subst hfs
    have hmf : munchDigits (fs ++ rest) = (fs, rest) := by
      apply munchDigits_append_digits hfsall
      intro c t2 hcon
      rcases hrest with hrest | ⟨c2, r2, hr2, hnd, _⟩
      · rw [hrest] at hcon
        cases hcon
      · rw [hr2] at hcon
        injection hcon with h1 _
        rw [← h1]
        exact hnd
    have hcons : (('.' :: fs) ++ rest : List Char) = '.' :: (fs ++ rest) := rfl
    rw [hcons]
    simp [hmf, hfsne, List.append_assoc]

lemma finditerAux_nil {α : Type} (m : List Char → Option (α × List Char))
    (fuel pos : Nat) : finditerAux m fuel [] pos = [] := by
  cases fuel <;> rfl

lemma finditer_single {α : Type} {m : List Char → Option (α × List Char)} {cs : List Char}
    {a : α} (hne : cs ≠ []) (h : m cs = some (a, [])) :
    finditer m cs = [(0, cs.length, a)] := by
  cases cs with
  | nil => exact absurd rfl hne
  | cons c t =>
    show finditerAux m (t.length + 1) (c :: t) 0 = _
    unfold finditerAux
    simp only [h, finditerAux_nil]
    simp

lemma munchWs_colon (M : List Char) : munchWs (':' :: M) = ':' :: M := rfl

lemma munchWs_space (M : List Char) : munchWs (' ' :: M) = munchWs M := rfl

lemma munchWs_comma (M : List Char) : munchWs (',' :: M) = ',' :: M := rfl

/-- C2. For every casing of the coordinate key, every pair of numeric
tokens and every combination of present/absent brackets, the tagged-pair
extractor matches the fragment `"key": [a, b]` (brackets optional on both
sides independently) and captures exactly the same coordinate token pair. -/
theorem C2_bracket_tolerance (key a b : List Char) (lb rb : Bool)
    (hk : pyLower key = ['l', 'a', 't', 'l', 'o', 'n'])
    (ha : IsNumTok a) (hb : IsNumTok b) :
    taggedPairs (taggedFragment key a b lb rb) = [(String.mk a, String.mk b)] := by
  obtain ⟨c0, a2, ha0, hc0⟩ := numTok_head ha
  obtain ⟨c1, b2, hb0, hc1⟩ := numTok_head hb
  have hws0 : pyWs c0 = false := by
    unfold pyWs
    simp only [Bool.or_eq_false_iff, decide_eq_false_iff_not]
    omega
  have hws1 : pyWs c1 = false := by
    unfold pyWs
    simp only [Bool.or_eq_false_iff, decide_eq_false_iff_not]
    omega
  have hc0br : ¬(c0 = '[') := by
    rw [char_eq_iff_toNat]
    have : ('[').toNat = 91 := rfl
    omega
  have hfrag : taggedFragment key a b lb rb =
      ('"' :: (key ++ ['"'])) ++ (':' :: ' ' ::
        ((if lb then ['['] else []) ++
          (a ++ (',' :: ' ' :: (b ++ (if rb then [']'] else [])))))) := by
    unfold taggedFragment
    simp [List.append_assoc]
  have hklow : pyLower ('"' :: (key ++ ['"'])) = pyLower latlonLit := by
    unfold pyLower
    simp only [List.map_cons, List.map_append]
    rw [show List.map lowerChar key = pyLower key from rfl, hk]
    decide
  have hopen : ∀ R : List Char,
      munchWs (skipOpenBracket (munchWs ((if lb then ['['] else []) ++ (a ++ R)))) =
        a ++ R := by
    intro R
    rw [ha0, List.cons_append]
    cases lb
    · show munchWs (skipOpenBracket (munchWs ([] ++ (c0 :: (a2 ++ R))))) = c0 :: (a2 ++ R)
      rw [List.nil_append, munchWs_cons _ hws0]
      unfold skipOpenBracket
      rw [if_neg (by
        rw [List.head?_cons]
        intro hcon
        injection hcon with h1
        exact hc0br h1)]
      rw [munchWs_cons _ hws0]
    · show munchWs (skipOpenBracket (munchWs ('[' :: (c0 :: (a2 ++ R))))) = c0 :: (a2 ++ R)
      rw [munchWs_cons _ (by decide)]
      unfold skipOpenBracket
      rw [if_pos (by rw [List.head?_cons])]
      rw [List.tail_cons, munchWs_cons _ hws0]
  have hclose : skipCloseBracket (munchWs (if rb then [']'] else [])) = [] := by
    cases rb <;> rfl
  have hrb : (if rb then [']'] else [] : List Char) = [] ∨
      ∃ c r2, (if rb then [']'] else [] : List Char) = c :: r2 ∧
        c.isDigit = false ∧ ¬(c = '.') := by
    cases rb
    · exact Or.inl rfl
    · exact Or.inr ⟨']', [], rfl, by decide, by decide⟩
  have hta : taggedAt (taggedFragment key a b lb rb) =
      some ((String.mk a, String.mk b), []) := by
    rw [hfrag]
    unfold taggedAt
    simp only [ciMatch_of_lower hklow]
    simp only [munchWs_colon, List.head?_cons, List.tail_cons, munchWs_space]
    rw [if_pos trivial]
    rw [hopen (',' :: ' ' :: (b ++ (if rb then [']'] else [])))]
    simp only [munchNum_token_append ha
      (Or.inr ⟨',', ' ' :: (b ++ (if rb then [']'] else [])), rfl, by decide, by decide⟩)]
    simp only [munchWs_comma, List.head?_cons, List.tail_cons, munchWs_space]
    rw [if_pos trivial]
    rw [hb0, List.cons_append, munchWs_cons _ hws1, ← List.cons_append, ← hb0]
    simp only [munchNum_token_append hb hrb]
    rw [hclose]
  have hne : taggedFragment key a b lb rb ≠ [] := by
    rw [hfrag]
    simp
  unfold taggedPairs
  rw [finditer_single hne hta]
  rfl

/-- Witness for C2: the bracketed and the unbracketed forms of
`"latlon": 1.5, 2.5` (with a differently-cased key) capture the same
coordinate pair. -/
theorem C2_witness :
    taggedPairs (taggedFragment "LatLon".data "1.5".data "2.5".data true true) =
      [("1.5", "2.5")] ∧
    taggedPairs (taggedFragment "latlon".data "1.5".data "2.5".data false false) =
      [("1.5", "2.5")] := by
  have h15 : IsNumTok "1.5".data :=
    ⟨[], ['1'], ['.', '5'], by decide, Or.inl rfl, by decide, by decide,
      Or.inr ⟨['5'], rfl, by decide, by decide⟩⟩
  have h25 : IsNumTok "2.5".data :=
    ⟨[], ['2'], ['.', '5'], by decide, Or.inl rfl, by decide, by decide,
      Or.inr ⟨['5'], rfl, by decide, by decide⟩⟩
  exact ⟨C2_bracket_tolerance _ _ _ true true (by decide) h15 h25,
    C2_bracket_tolerance _ _ _ false false (by decide) h15 h25⟩

/-! ## C8: fence stripping -/

/-- C8 counterexample: with the language tag `python` the fence is NOT
removed (the code only recognises `json`), the leftover tag text breaks the
strict decode, and the output differs from the unwrapped payload's. -/
theorem C8_counterexample :
    parse_gemini_latlon_list (.str "```python\n[\x7b\"latlon\": [\"1\", \"2\"]\x7d]\n```") =
      .ok [] ∧
    parse_gemini_latlon_list (.str "[\x7b\"latlon\": [\"1\", \"2\"]\x7d]") =
      .ok [⟨(.finite 1, .finite 2), none⟩] := by
  constructor <;> with_unfolding_all rfl

lemma startsWithTicks_cons (X : List Char) :
    startsWithTicks (btick :: btick :: btick :: X) = true := by
  unfold startsWithTicks
  simp

lemma stripLeadingFence_no_fence {l : List Char} (h : startsWithTicks l = false) :
    stripLeadingFence l = l := by
  unfold stripLeadingFence
  rw [h]
  rfl

lemma stripTrailingFence_no_fence {l : List Char} (h2 : startsWithTicks l.reverse = false)
    (h3 : ∀ c r, l.reverse = c :: r → pyWs c = false) :
    stripTrailingFence l = l := by
  unfold stripTrailingFence
  rw [if_neg (by rw [h2]; simp)]
  rw [if_neg]
  rintro ⟨hh, _⟩
  cases hl : l.reverse with
  | nil =>
    rw [hl] at hh
    cases hh
  | cons c r =>
    rw [hl] at hh
    simp only [List.head?_cons, Option.some.injEq] at hh
    have hws := h3 c r hl
    rw [hh] at hws
    exact absurd hws (by decide)

lemma pyStrip_eq_self_cons_concat {c d : Char} {m : List Char}
    (hc : pyWs c = false) (hd : pyWs d = false) :
    pyStrip (c :: (m ++ [d])) = c :: (m ++ [d]) := by
  unfold pyStrip dropLeadWs dropTrailWs
  rw [dropWhile_cons_false _ hc]
  have hrev : (c :: (m ++ [d])).reverse = d :: (m.reverse ++ [c]) := by
    rw [List.reverse_cons, List.reverse_append]
    rfl
  rw [hrev, dropWhile_cons_false _ hd, ← hrev, List.reverse_reverse]

/-- C8 (amended). Wrapping a payload in triple-backtick fences with the
`json` language tag in any casing, or with no tag at all, produces the same
output as the unwrapped payload, provided the payload itself does not start
or end (after stripping) with a fence marker of its own.  (For any other
language tag the code does not strip the tag, so the equality can fail —
see the counterexample.) -/
theorem C8_fence_stripping (tag p : String)
    (htag : tag = "" ∨ pyLower tag.data = ['j', 's', 'o', 'n'])
    (h1 : startsWithTicks (pyStrip p.data) = false)
    (h2 : startsWithTicks (pyStrip p.data).reverse = false) :
    parse_gemini_latlon_list (.str ("```" ++ tag ++ "\n" ++ p ++ "\n```")) =
      parse_gemini_latlon_list (.str p) := by
  show Except.ok (parseCore (preprocess ("```" ++ tag ++ "\n" ++ p ++ "\n```").data)) =
    Except.ok (parseCore (preprocess p.data))
  have hpre : preprocess ("```" ++ tag ++ "\n" ++ p ++ "\n```").data = preprocess p.data := by
    unfold preprocess
    have hrhs1 : stripLeadingFence (pyStrip p.data) = pyStrip p.data :=
      stripLeadingFence_no_fence h1
    have hrhs2 : stripTrailingFence (pyStrip p.data) = pyStrip p.data :=
      stripTrailingFence_no_fence h2 (fun c r hcr => pyStrip_rev_head_false hcr)
    rw [hrhs1, hrhs2]
    have hshape : ("```" ++ tag ++ "\n" ++ p ++ "\n```").data =
        btick :: btick :: btick ::
          (tag.data ++ '\n' :: (p.data ++ '\n' :: [btick, btick, btick])) := by
      have e3 : "```".data = [btick, btick, btick] := by decide
      have e4 : "\n".data = ['\n'] := by decide
      have e5 : "\n```".data = ['\n', btick, btick, btick] := by decide
      rw [String.data_append, String.data_append, String.data_append, String.data_append,
        e3, e4, e5]
      simp [List.append_assoc]
    have hstrip : pyStrip ("```" ++ tag ++ "\n" ++ p ++ "\n```").data =
        ("```" ++ tag ++ "\n" ++ p ++ "\n```").data := by
      rw [hshape]
      have hpush : btick :: btick :: btick ::
          (tag.data ++ '\n' :: (p.data ++ '\n' :: [btick, btick, btick])) =
          btick :: ((btick :: btick ::
            (tag.data ++ '\n' :: (p.data ++ ['\n', btick, btick]))) ++ [btick]) := by
        simp [List.append_assoc]
      rw [hpush]
      exact pyStrip_eq_self_cons_concat (by decide) (by decide)
    rw [hstrip, hshape]
    have hlead : stripLeadingFence (btick :: btick :: btick ::
        (tag.data ++ '\n' :: (p.data ++ '\n' :: [btick, btick, btick]))) =
        munchWs (p.data ++ '\n' :: [btick, btick, btick]) := by
      unfold stripLeadingFence
      rw [startsWithTicks_cons, if_pos rfl]
      have hdrop3 : (btick :: btick :: btick ::
          (tag.data ++ '\n' :: (p.data ++ '\n' :: [btick, btick, btick]))).drop 3 =
          tag.data ++ '\n' :: (p.data ++ '\n' :: [btick, btick, btick]) := rfl
      rw [hdrop3]
      rcases htag with htag | htag
      · subst htag
        show (if pyLower ((('\n' :: (p.data ++ '\n' :: [btick, btick, btick])) : List Char).take 4) =
            ['j', 's', 'o', 'n'] then _ else _) = _
        rw [if_neg (by
          intro hcon
          have hx : pyLower ('\n' :: List.take 3 (p.data ++ ['\n', btick, btick, btick])) =
              ['j', 's', 'o', 'n'] := hcon
          unfold pyLower at hx
          simp only [List.map_cons] at hx
          injection hx with hx1 _
          exact absurd hx1 (by decide))]
        show munchWs ('\n' :: (p.data ++ '\n' :: [btick, btick, btick])) = _
        exact munchWs_cons_ws _ (by decide)
      · have hlen : tag.data.length = 4 := by
          have := congrArg List.length htag
          simpa [pyLower] using this
        obtain ⟨t1, t2, t3, t4, hts⟩ : ∃ t1 t2 t3 t4, tag.data = [t1, t2, t3, t4] := by
          cases h0 : tag.data with
          | nil => rw [h0] at hlen; cases hlen
          | cons u1 r1 =>
            cases h1x : r1 with
            | nil => rw [h0, h1x] at hlen; cases hlen
            | cons u2 r2 =>
              cases h2x : r2 with
              | nil => rw [h0, h1x, h2x] at hlen; cases hlen
              | cons u3 r3 =>
                cases h3x : r3 with
                | nil => rw [h0, h1x, h2x, h3x] at hlen; cases hlen
                | cons u4 r4 =>
                  cases h4x : r4 with
                  | nil => exact ⟨u1, u2, u3, u4, rfl⟩
                  | cons u5 r5 =>
                    rw [h0, h1x, h2x, h3x, h4x] at hlen
                    simp at hlen
        rw [hts] at htag
        simp only [hts]
        show (if pyLower ((t1 :: t2 :: t3 :: t4 ::
            ('\n' :: (p.data ++ '\n' :: [btick, btick, btick]))).take 4) =
            ['j', 's', 'o', 'n'] then _ else _) = _
        rw [if_pos (by
          have hx : (List.take 4 (t1 :: t2 :: t3 :: t4 ::
            ('\n' :: (p.data ++ '\n' :: [btick, btick, btick])))) = [t1, t2, t3, t4] := rfl
          rw [hx]
          exact htag)]
        show munchWs ('\n' :: (p.data ++ '\n' :: [btick, btick, btick])) = _
        exact munchWs_cons_ws _ (by decide)
    rw [hlead]
    have hmain : stripTrailingFence (munchWs (p.data ++ '\n' :: [btick, btick, btick])) =
        pyStrip p.data := by
      unfold munchWs
      rw [List.dropWhile_append]
      by_cases hA : (p.data.dropWhile pyWs).isEmpty = true
      · rw [if_pos hA]
        have hA2 : dropLeadWs p.data = [] := List.isEmpty_iff.mp hA
        have hconc : ((('\n' :: [btick, btick, btick]) : List Char).dropWhile pyWs) =
            [btick, btick, btick] := by decide
        rw [hconc]
        have hstick : stripTrailingFence [btick, btick, btick] = [] := by decide
        rw [hstick]
        unfold pyStrip
        rw [hA2]
        rfl
      · rw [if_neg hA]
        cases hAx : p.data.dropWhile pyWs with
        | nil =>
          rw [hAx] at hA
          exact absurd rfl hA
        | cons x xs =>
          have hxws : pyWs x = false := head_dropWhile_false hAx
          have hrev : ((x :: xs) ++ '\n' :: [btick, btick, btick]).reverse =
              btick :: btick :: btick :: ('\n' :: (x :: xs).reverse) := by
            rw [List.reverse_append]
            rfl
          unfold stripTrailingFence
          rw [hrev]
          show ((('\n' :: (x :: xs).reverse).dropWhile pyWs).reverse : List Char) = _
          rw [List.dropWhile_cons, if_pos (by decide)]
          unfold pyStrip dropLeadWs dropTrailWs
          rw [hAx]
    rw [hmain]
  rw [hpre]

/-- Witness for C8: a json-tagged fence around a well-formed payload parses
exactly as the bare payload. -/
theorem C8_witness :
    parse_gemini_latlon_list (.str "```json\n[\x7b\"latlon\": [1, 2]\x7d]\n```") =
      parse_gemini_latlon_list (.str "[\x7b\"latlon\": [1, 2]\x7d]") :=
  C8_fence_stripping "json" "[\x7b\"latlon\": [1, 2]\x7d]" (Or.inr (by decide))
    (by decide) (by decide)

end WellWorld

